import Mathlib

/-!
# Shallow embedding of the dagre in-memory graph engine

This file models `src/dagre-graph/src/lib.rs`: a store (`BTreeMap` from owned
node to its `Edges`) of uniquely-keyed nodes, with per-node incoming/outgoing
adjacency lists of weak handles and a per-node ring log, and the operations of
the `DagreProtocol` trait (`node`, `unidirectional`, `bidirectional`,
`unlink`, `evict`) together with `Edges::invalidate_from` and the
`DagreRingLog` writer / `dumps`.

Modelling choices, each justified against the source:
* A node's identity is its `Rc` allocation; two allocations for the same key
  never coexist in the store (the upsert dedups), and a `Weak` handle upgrades
  exactly when its own allocation is still strongly held, which (the map being
  the sole strong owner) happens exactly when that very allocation is still in
  the map.  We model an allocation as a pair of the key and a generation
  number drawn from a monotone counter `nextGen`, a handle as such a pair, and
  `upgrade`/`get_by` succeed when the store's entry for the key carries the
  handle's generation.
* The `BTreeMap` is modelled as an association list keyed by the node key
  (the map's `Ord` on nodes compares `data.unique()` only); no claim observes
  the map's iteration order, so the list's order is irrelevant.
* Each cell of the ring log's `VecDeque` holds the bytes of
  `event.to_string()`, a pure function of the `DagreEvent`; we store the
  events themselves and recover the bytes with `eventToString` when dumping,
  which yields exactly the same byte stream.
* `Weak::strong_count != 0` (in `retain` inside `invalidate_from`) is the
  same test as upgradeability, hence modelled by `resolves`.
-/

/-- The node key type (`NodeLike::Unique`); the test suite uses `usize`. -/
abbrev Key := Nat

/-- A rendered node label (`NodeLike::label`, a boxed byte slice). -/
abbrev Label := String

/-- A caller payload: something implementing `NodeLike` (a key and a label). -/
structure Payload where
  key : Key
  label : Label
deriving DecidableEq, Repr

/-- `DagreEvent` from the source, with the borrowed label bytes inlined. -/
inductive DagreEvent where
  | Add (l : Label)
  | From (l : Label)
  | To (l : Label)
  | Remove (l : Label)
  | UnlinkInc (l : Label)
  | UnlinkOut (l : Label)
deriving DecidableEq, Repr

/-- The `ToString` impl for `DagreEvent` (each log line, newline-terminated). -/
def eventToString : DagreEvent → String
  | .Add l => "[+]   " ++ l ++ "\n"
  | .From l => l ++ " -> *\n"
  | .To l => "*  -> " ++ l ++ "\n"
  | .Remove l => "[-]   " ++ l ++ "\n"
  | .UnlinkInc l => "* -/-> " ++ l ++ "\n"
  | .UnlinkOut l => l ++ " -/-> *\n"

/-- A `Weak<RefCell<DagreNode>>` handle: it names one allocation, identified
by the node key plus the generation at which that allocation was created. -/
structure Handle where
  key : Key
  gen : Nat
deriving DecidableEq, Repr

/-- The `Edges` value of one store entry: incoming edge set, outgoing edge
set, the node's ring log (front = most recent, `push_front`), plus the data
the `Rc<RefCell<DagreNode>>` key carries (its generation and label). -/
structure NodeEntry where
  gen : Nat
  label : Label
  incoming : List Handle
  outgoing : List Handle
  log : List DagreEvent
deriving DecidableEq, Repr

/-- `DaggerMapGraph`: the `BTreeMap` of nodes, plus the generation counter
that models fresh `Rc` allocation identity. -/
structure Store where
  nodes : List (Key × NodeEntry)
  nextGen : Nat
deriving DecidableEq, Repr

/-- Lookup in the association list modelling the `BTreeMap` (`get` keyed by
node, whose `Ord` compares the unique key). -/
def lookupN (k : Key) : List (Key × NodeEntry) → Option NodeEntry
  | [] => none
  | kv :: rest => if kv.1 = k then some kv.2 else lookupN k rest

namespace Store

/-- `Weak::upgrade` succeeds iff the handle's allocation is still strongly
held, i.e. iff the store still has an entry for the key with this
generation. -/
def resolves (s : Store) (h : Handle) : Bool :=
  match lookupN h.key s.nodes with
  | some e => e.gen == h.gen
  | none => false

/-- `DagreProtocol::get_by` (spec `resolve`): the live edge set of a handle. -/
def get_by (s : Store) (h : Handle) : Option NodeEntry :=
  match lookupN h.key s.nodes with
  | some e => if e.gen == h.gen then some e else none
  | none => none

/-- Label of the node a handle points at (`presence.borrow().data.label()`);
only ever used on handles that resolve. -/
def labelOf (s : Store) (h : Handle) : Label :=
  match lookupN h.key s.nodes with
  | some e => e.label
  | none => ""

/-- `self.get_mut(..)` followed by a field update: rewrite the entry at `k`
if present, otherwise do nothing. -/
def modifyNode (s : Store) (k : Key) (f : NodeEntry → NodeEntry) : Store :=
  { s with nodes := s.nodes.map (fun kv => if kv.1 = k then (kv.1, f kv.2) else kv) }

/-- `BTreeMap::remove` keyed by the node. -/
def removeKey (s : Store) (k : Key) : Store :=
  { s with nodes := s.nodes.filter (fun kv => kv.1 ≠ k) }

/-- Store size (`BTreeMap::len`). -/
def size (s : Store) : Nat := s.nodes.length

end Store

/-- `DagreProtocol::node`: upsert.  If the key is already present return a
downgraded handle to the existing allocation (no mutation, no log entry);
otherwise insert a fresh node with empty edge sets, write `Add(label)` to its
log, and return a handle to the new allocation. -/
def nodeOp (s : Store) (p : Payload) : Store × Handle :=
  match lookupN p.key s.nodes with
  | some e => (s, ⟨p.key, e.gen⟩)
  | none =>
    let g := s.nextGen
    let e : NodeEntry :=
      { gen := g, label := p.label, incoming := [], outgoing := [],
        log := [DagreEvent.Add p.label] }
    ({ nodes := (p.key, e) :: s.nodes, nextGen := g + 1 }, ⟨p.key, g⟩)

/-- `DagreProtocol::unidirectional`: if both handles upgrade, push the
destination onto the origin's outgoing list and log `To(label of dest)`, then
push the origin onto the destination's incoming list and log
`From(label of origin)`; otherwise do nothing. -/
def unidirectional (s : Store) (origin dest : Handle) : Store :=
  if s.resolves origin ∧ s.resolves dest then
    let lab := s.labelOf dest
    let s1 := s.modifyNode origin.key (fun e =>
      { e with outgoing := e.outgoing ++ [dest],
               log := DagreEvent.To lab :: e.log })
    let lab2 := s1.labelOf origin
    s1.modifyNode dest.key (fun e =>
      { e with incoming := e.incoming ++ [origin],
               log := DagreEvent.From lab2 :: e.log })
  else s

/-- `DagreProtocol::bidirectional`: as in the source, on the origin side
`lab` is the destination's label but `flab` is the origin's own label
(`frompresence`), and on the destination side both `lab` and `tlab` are read
from `frompresence`. -/
def bidirectional (s : Store) (origin dest : Handle) : Store :=
  if s.resolves origin ∧ s.resolves dest then
    let lab := s.labelOf dest
    let flab := s.labelOf origin
    let s1 := s.modifyNode origin.key (fun e =>
      { e with outgoing := e.outgoing ++ [dest],
               incoming := e.incoming ++ [dest],
               log := DagreEvent.From flab :: DagreEvent.To lab :: e.log })
    let lab2 := s1.labelOf origin
    let tlab := s1.labelOf origin
    s1.modifyNode dest.key (fun e =>
      { e with incoming := e.incoming ++ [origin],
               outgoing := e.outgoing ++ [origin],
               log := DagreEvent.To tlab :: DagreEvent.From lab2 :: e.log })
  else s

/-- The predicate of the `position` scan in `unlink`: the candidate weak
upgrades and the upgraded node equals the target node (key equality, the
`PartialEq` of `DagreNode`). -/
def matchesTarget (s : Store) (target : Handle) (o : Handle) : Bool :=
  s.resolves o && o.key == target.key

/-- `DagreProtocol::unlink`: if both handles upgrade, remove the first entry
of `from.outgoing` whose upgraded target equals `to` (entries that fail to
upgrade yield `false` in the scan and are skipped), then symmetrically the
first entry of `to.incoming` that upgrades to `from`; otherwise do nothing. -/
def unlink (s : Store) (a b : Handle) : Store :=
  if s.resolves a ∧ s.resolves b then
    let s1 := s.modifyNode a.key (fun e =>
      match e.outgoing.findIdx? (matchesTarget s b) with
      | some pos => { e with outgoing := e.outgoing.eraseIdx pos }
      | none => e)
    s1.modifyNode b.key (fun e =>
      match e.incoming.findIdx? (matchesTarget s1 a) with
      | some pos => { e with incoming := e.incoming.eraseIdx pos }
      | none => e)
  else s

/-- One iteration of the first `for_each` in `Edges::invalidate_from`: if the
recorded incoming neighbor still upgrades, write `Remove(label)` to its log
and retain only its outgoing entries whose strong count is nonzero. -/
def cleanupStep (filterOutgoing : Bool) (lab : Label) (acc : Store) (nb : Handle) : Store :=
  if acc.resolves nb then
    acc.modifyNode nb.key (fun e =>
      if filterOutgoing then
        { e with log := DagreEvent.Remove lab :: e.log,
                 outgoing := e.outgoing.filter (fun o => acc.resolves o) }
      else
        { e with log := DagreEvent.Remove lab :: e.log,
                 incoming := e.incoming.filter (fun o => acc.resolves o) })
  else acc

/-- `Edges::invalidate_from`: for each handle in the evicted node's incoming
list, clean the live neighbor's outgoing list; then for each handle in its
outgoing list, clean the live neighbor's incoming list. -/
def invalidate_from (incs outs : List Handle) (lab : Label) (s : Store) : Store :=
  let s2 := incs.foldl (cleanupStep true lab) s
  outs.foldl (cleanupStep false lab) s2

/-- `DagreProtocol::evict`: if the handle upgrades, remove the entry from the
map (dropping the last strong reference), then run `invalidate_from` with the
evicted node's recorded edge sets and label. -/
def evict (s : Store) (h : Handle) : Store :=
  match lookupN h.key s.nodes with
  | some entry =>
    if entry.gen == h.gen then
      invalidate_from entry.incoming entry.outgoing entry.label (s.removeKey h.key)
    else s
  | none => s

/-- `DagreRingLog::dumps`: iterate the buffer in reverse (`iter().rev()`,
i.e. back of the deque first = oldest first) and write each entry's bytes. -/
def dumps (log : List DagreEvent) : String :=
  String.join (log.reverse.map eventToString)

/-- One caller step against the `DagreProtocol` surface. -/
inductive Op where
  | nodeO (p : Payload)
  | linkO (a b : Handle)
  | bidiO (a b : Handle)
  | unlinkO (a b : Handle)
  | evictO (a : Handle)
deriving DecidableEq, Repr

/-- Apply one protocol operation to the store. -/
def applyOp (s : Store) : Op → Store
  | .nodeO p => (nodeOp s p).1
  | .linkO a b => unidirectional s a b
  | .bidiO a b => bidirectional s a b
  | .unlinkO a b => unlink s a b
  | .evictO a => evict s a

/-- Run a sequence of protocol operations. -/
def run (ops : List Op) (s : Store) : Store := ops.foldl applyOp s

/-- `DaggerMapGraph::new()`. -/
def emptyStore : Store := { nodes := [], nextGen := 0 }

/-- Well-formedness maintained by the store: keys are not duplicated (the
upsert dedups) and every entry's generation is below the allocation
counter. -/
def WF (s : Store) : Prop :=
  s.nodes.Pairwise (fun x y => x.1 ≠ y.1) ∧ ∀ kv ∈ s.nodes, kv.2.gen < s.nextGen

/-- Removal of the first entry satisfying a predicate; specification-level
recursion equal to the `position`-then-`remove(pos)` composition in
`unlink` (see `findIdx_eraseIdx_eq_removeFirst`). -/
def removeFirst (p : Handle → Bool) : List Handle → List Handle
  | [] => []
  | x :: xs => if p x then xs else x :: removeFirst p xs

/-- Whether an event is one of the two `Unlink` kinds of `DagreEvent`. -/
def isUnlinkEvent : DagreEvent → Bool
  | .UnlinkInc _ => true
  | .UnlinkOut _ => true
  | _ => false

/-- No log anywhere in the store holds an `UnlinkInc` or `UnlinkOut` event. -/
def noUnlinkEvents (s : Store) : Bool :=
  s.nodes.all fun kv => kv.2.log.all fun ev => !(isUnlinkEvent ev)

/-- Modelled from the spec: the dump order the specification asserts for
`dump_log` — "emits entries in reverse chronological order (most recently
appended first)", i.e. the buffer (front = most recent) written front to
back.  To be compared with `dumps`, which models the source. -/
def dumpsNewestFirst (log : List DagreEvent) : String :=
  String.join (log.map eventToString)

/-- Proposition form of `noUnlinkEvents`: no log of any entry holds an
`UnlinkInc` or `UnlinkOut` event. -/
def cleanLogs (s : Store) : Prop :=
  ∀ kv ∈ s.nodes, ∀ ev ∈ kv.2.log, isUnlinkEvent ev = false

/-! ## Basic lemmas about the store primitives -/

theorem lookupN_map_modify (k : Key) (f : NodeEntry → NodeEntry) :
    ∀ l : List (Key × NodeEntry),
      lookupN k (l.map fun kv => if kv.1 = k then (kv.1, f kv.2) else kv)
        = (lookupN k l).map f
  | [] => rfl
  | kv :: rest => by
      by_cases h : kv.1 = k
      · simp [lookupN, h]
      · simp [lookupN, h, lookupN_map_modify k f rest]

theorem lookupN_map_modify_ne (k k' : Key) (f : NodeEntry → NodeEntry) (hne : k' ≠ k) :
    ∀ l : List (Key × NodeEntry),
      lookupN k' (l.map fun kv => if kv.1 = k then (kv.1, f kv.2) else kv)
        = lookupN k' l
  | [] => rfl
  | kv :: rest => by
      by_cases h : kv.1 = k
      · have h2 : ¬ kv.1 = k' := fun hh => hne (hh.symm.trans h)
        simp only [List.map_cons, if_pos h, lookupN, if_neg h2,
          lookupN_map_modify_ne k k' f hne rest]
      · by_cases h3 : kv.1 = k'
        · simp only [List.map_cons, if_neg h, lookupN, if_pos h3]
        · simp only [List.map_cons, if_neg h, lookupN, if_neg h3,
            lookupN_map_modify_ne k k' f hne rest]

theorem lookupN_modify_self (s : Store) (k : Key) (f : NodeEntry → NodeEntry) :
    lookupN k (s.modifyNode k f).nodes = (lookupN k s.nodes).map f :=
  lookupN_map_modify k f s.nodes

theorem lookupN_modify_ne (s : Store) (k k' : Key) (f : NodeEntry → NodeEntry)
    (hne : k' ≠ k) : lookupN k' (s.modifyNode k f).nodes = lookupN k' s.nodes :=
  lookupN_map_modify_ne k k' f hne s.nodes

theorem lookupN_removeKey_self (k : Key) :
    ∀ l : List (Key × NodeEntry), lookupN k (l.filter fun kv => kv.1 ≠ k) = none
  | [] => rfl
  | kv :: rest => by
      by_cases h : kv.1 = k
      · rw [List.filter_cons_of_neg (by simpa using h)]
        exact lookupN_removeKey_self k rest
      · rw [List.filter_cons_of_pos (by simpa using h)]
        simp only [lookupN, if_neg h]
        exact lookupN_removeKey_self k rest

theorem lookupN_removeKey_ne (k k' : Key) (hne : k' ≠ k) :
    ∀ l : List (Key × NodeEntry),
      lookupN k' (l.filter fun kv => kv.1 ≠ k) = lookupN k' l
  | [] => rfl
  | kv :: rest => by
      by_cases h : kv.1 = k
      · have h2 : ¬ kv.1 = k' := fun hh => hne (hh.symm.trans h)
        rw [List.filter_cons_of_neg (by simpa using h)]
        simp only [lookupN, if_neg h2]
        exact lookupN_removeKey_ne k k' hne rest
      · rw [List.filter_cons_of_pos (by simpa using h)]
        by_cases h3 : kv.1 = k'
        · simp only [lookupN, if_pos h3]
        · simp only [lookupN, if_neg h3]
          exact lookupN_removeKey_ne k k' hne rest

theorem resolves_modify (s : Store) (k : Key) (f : NodeEntry → NodeEntry)
    (hf : ∀ e, (f e).gen = e.gen) (h : Handle) :
    (s.modifyNode k f).resolves h = s.resolves h := by
  unfold Store.resolves
  by_cases hk : h.key = k
  · rw [hk, lookupN_modify_self]
    cases lookupN k s.nodes with
    | none => rfl
    | some e => simp [hf]
  · rw [lookupN_modify_ne _ _ _ _ hk]

theorem labelOf_modify (s : Store) (k : Key) (f : NodeEntry → NodeEntry)
    (hf : ∀ e, (f e).label = e.label) (h : Handle) :
    (s.modifyNode k f).labelOf h = s.labelOf h := by
  unfold Store.labelOf
  by_cases hk : h.key = k
  · rw [hk, lookupN_modify_self]
    cases lookupN k s.nodes with
    | none => rfl
    | some e => simp [hf]
  · rw [lookupN_modify_ne _ _ _ _ hk]

theorem nextGen_modify (s : Store) (k : Key) (f : NodeEntry → NodeEntry) :
    (s.modifyNode k f).nextGen = s.nextGen := rfl

theorem nextGen_removeKey (s : Store) (k : Key) :
    (s.removeKey k).nextGen = s.nextGen := rfl

theorem size_modify (s : Store) (k : Key) (f : NodeEntry → NodeEntry) :
    (s.modifyNode k f).size = s.size := by
  simp [Store.size, Store.modifyNode]

/-- Both branches of `cleanupStep` keep a node's generation. -/
theorem cleanupStep_resolves (fo : Bool) (lab : Label) (acc : Store) (nb h : Handle) :
    (cleanupStep fo lab acc nb).resolves h = acc.resolves h := by
  unfold cleanupStep
  by_cases hr : acc.resolves nb
  · rw [if_pos hr]
    exact resolves_modify _ _ _ (by intro e; cases fo <;> rfl) h
  · rw [if_neg hr]

theorem cleanupFold_resolves (fo : Bool) (lab : Label) (h : Handle) :
    ∀ (L : List Handle) (acc : Store),
      (L.foldl (cleanupStep fo lab) acc).resolves h = acc.resolves h
  | [], acc => rfl
  | nb :: rest, acc => by
      rw [List.foldl_cons, cleanupFold_resolves fo lab h rest, cleanupStep_resolves]

theorem invalidate_from_resolves (incs outs : List Handle) (lab : Label) (s : Store)
    (h : Handle) : (invalidate_from incs outs lab s).resolves h = s.resolves h := by
  unfold invalidate_from
  rw [cleanupFold_resolves, cleanupFold_resolves]

theorem cleanupStep_nextGen (fo : Bool) (lab : Label) (acc : Store) (nb : Handle) :
    (cleanupStep fo lab acc nb).nextGen = acc.nextGen := by
  unfold cleanupStep
  by_cases hr : acc.resolves nb
  · rw [if_pos hr]; rfl
  · rw [if_neg hr]

theorem cleanupFold_nextGen (fo : Bool) (lab : Label) :
    ∀ (L : List Handle) (acc : Store),
      (L.foldl (cleanupStep fo lab) acc).nextGen = acc.nextGen
  | [], acc => rfl
  | nb :: rest, acc => by
      rw [List.foldl_cons, cleanupFold_nextGen fo lab rest, cleanupStep_nextGen]

theorem invalidate_from_nextGen (incs outs : List Handle) (lab : Label) (s : Store) :
    (invalidate_from incs outs lab s).nextGen = s.nextGen := by
  unfold invalidate_from
  rw [cleanupFold_nextGen, cleanupFold_nextGen]

/-! ## No-ops on stale handles -/

theorem unidirectional_stale_left (s : Store) (a b : Handle)
    (ha : s.resolves a = false) : unidirectional s a b = s := by
  simp [unidirectional, ha]

theorem unidirectional_stale_right (s : Store) (a b : Handle)
    (hb : s.resolves b = false) : unidirectional s a b = s := by
  simp [unidirectional, hb]

theorem bidirectional_stale_left (s : Store) (a b : Handle)
    (ha : s.resolves a = false) : bidirectional s a b = s := by
  simp [bidirectional, ha]

theorem bidirectional_stale_right (s : Store) (a b : Handle)
    (hb : s.resolves b = false) : bidirectional s a b = s := by
  simp [bidirectional, hb]

theorem unlink_stale_left (s : Store) (a b : Handle)
    (ha : s.resolves a = false) : unlink s a b = s := by
  simp [unlink, ha]

theorem unlink_stale_right (s : Store) (a b : Handle)
    (hb : s.resolves b = false) : unlink s a b = s := by
  simp [unlink, hb]

theorem evict_stale (s : Store) (a : Handle) (ha : s.resolves a = false) :
    evict s a = s := by
  unfold evict
  unfold Store.resolves at ha
  cases hl : lookupN a.key s.nodes with
  | none => rfl
  | some e =>
      rw [hl] at ha
      simp at ha
      simp [ha]

/-! ## Claim C5 and C3 -/

/-- C5: for `link`, `link_bidi`, `unlink` and `evict`, if any handle argument
is stale (fails to resolve), the call is a silent no-op: the returned store —
map, every adjacency list and every log — is exactly the store before the
call, with no partial mutation.  Stated with `a` as the stale handle, in
both argument positions. -/
theorem C5_stale_silent_noop (s : Store) (a b : Handle)
    (ha : s.resolves a = false) :
    unidirectional s a b = s ∧ unidirectional s b a = s ∧
      bidirectional s a b = s ∧ bidirectional s b a = s ∧
      unlink s a b = s ∧ unlink s b a = s ∧ evict s a = s :=
  ⟨unidirectional_stale_left s a b ha, unidirectional_stale_right s b a ha,
   bidirectional_stale_left s a b ha, bidirectional_stale_right s b a ha,
   unlink_stale_left s a b ha, unlink_stale_right s b a ha,
   evict_stale s a ha⟩

/-- Witness for C5: in the store holding only key 1, the handle `⟨0, 0⟩` is
stale and every operation taking it is the identity. -/
theorem C5_stale_silent_noop_witness :
    (run [Op.nodeO ⟨1, "B"⟩] emptyStore).resolves ⟨0, 0⟩ = false ∧
      (unidirectional (run [Op.nodeO ⟨1, "B"⟩] emptyStore) ⟨0, 0⟩ ⟨1, 0⟩
          = run [Op.nodeO ⟨1, "B"⟩] emptyStore ∧
        unidirectional (run [Op.nodeO ⟨1, "B"⟩] emptyStore) ⟨1, 0⟩ ⟨0, 0⟩
          = run [Op.nodeO ⟨1, "B"⟩] emptyStore ∧
        bidirectional (run [Op.nodeO ⟨1, "B"⟩] emptyStore) ⟨0, 0⟩ ⟨1, 0⟩
          = run [Op.nodeO ⟨1, "B"⟩] emptyStore ∧
        bidirectional (run [Op.nodeO ⟨1, "B"⟩] emptyStore) ⟨1, 0⟩ ⟨0, 0⟩
          = run [Op.nodeO ⟨1, "B"⟩] emptyStore ∧
        unlink (run [Op.nodeO ⟨1, "B"⟩] emptyStore) ⟨0, 0⟩ ⟨1, 0⟩
          = run [Op.nodeO ⟨1, "B"⟩] emptyStore ∧
        unlink (run [Op.nodeO ⟨1, "B"⟩] emptyStore) ⟨1, 0⟩ ⟨0, 0⟩
          = run [Op.nodeO ⟨1, "B"⟩] emptyStore ∧
        evict (run [Op.nodeO ⟨1, "B"⟩] emptyStore) ⟨0, 0⟩
          = run [Op.nodeO ⟨1, "B"⟩] emptyStore) :=
  ⟨by decide, C5_stale_silent_noop (run [Op.nodeO ⟨1, "B"⟩] emptyStore) ⟨0, 0⟩ ⟨1, 0⟩ (by decide)⟩

/-- C3: upsert is idempotent and deduplicates by key — when the payload's key
already names a live node, `node(payload)` returns the store unchanged (so
store size is unchanged and no edge set or log anywhere is mutated, in
particular no `Add` event is written) together with a handle that resolves
to the existing node. -/
theorem C3_upsert_dedup (s : Store) (p : Payload) (e : NodeEntry)
    (hp : lookupN p.key s.nodes = some e) :
    (nodeOp s p).1 = s ∧ (nodeOp s p).2 = ⟨p.key, e.gen⟩ ∧
      s.get_by (nodeOp s p).2 = some e ∧ (nodeOp s p).1.size = s.size := by
  unfold nodeOp
  rw [hp]
  refine ⟨rfl, rfl, ?_, rfl⟩
  unfold Store.get_by
  rw [hp]
  simp

/-- Witness for C3: re-inserting key 1 into the store that already holds it
changes nothing and returns a handle to the existing entry. -/
theorem C3_upsert_dedup_witness :
    (nodeOp (run [Op.nodeO ⟨1, "A"⟩] emptyStore) ⟨1, "B"⟩).1
        = run [Op.nodeO ⟨1, "A"⟩] emptyStore ∧
      (nodeOp (run [Op.nodeO ⟨1, "A"⟩] emptyStore) ⟨1, "B"⟩).2 = ⟨1, 0⟩ ∧
      (run [Op.nodeO ⟨1, "A"⟩] emptyStore).get_by
          (nodeOp (run [Op.nodeO ⟨1, "A"⟩] emptyStore) ⟨1, "B"⟩).2
        = some { gen := 0, label := "A", incoming := [], outgoing := [],
                 log := [DagreEvent.Add "A"] } ∧
      (nodeOp (run [Op.nodeO ⟨1, "A"⟩] emptyStore) ⟨1, "B"⟩).1.size
        = (run [Op.nodeO ⟨1, "A"⟩] emptyStore).size :=
  C3_upsert_dedup (run [Op.nodeO ⟨1, "A"⟩] emptyStore) ⟨1, "B"⟩
    { gen := 0, label := "A", incoming := [], outgoing := [],
      log := [DagreEvent.Add "A"] } (by decide)

/-! ## Claim C9 -/

theorem lookupN_modify_of_some (s : Store) (k : Key) (f : NodeEntry → NodeEntry)
    (e : NodeEntry) (he : lookupN k s.nodes = some e) :
    lookupN k (s.modifyNode k f).nodes = some (f e) := by
  rw [lookupN_modify_self, he]
  rfl

theorem unidirectional_live (s : Store) (a b : Handle)
    (ha : s.resolves a = true) (hb : s.resolves b = true) :
    unidirectional s a b
      = (s.modifyNode a.key fun e =>
          { e with outgoing := e.outgoing ++ [b],
                   log := DagreEvent.To (s.labelOf b) :: e.log }).modifyNode b.key
          (fun e =>
            { e with incoming := e.incoming ++ [a],
                     log := DagreEvent.From (s.labelOf a) :: e.log }) := by
  unfold unidirectional
  rw [if_pos ⟨ha, hb⟩]
  dsimp only
  rw [labelOf_modify s a.key
      (fun e => { e with outgoing := e.outgoing ++ [b],
                         log := DagreEvent.To (s.labelOf b) :: e.log })
      (fun e => rfl) a]

theorem lookup_modify2_fst (s : Store) (ka kb : Key) (f1 f2 : NodeEntry → NodeEntry)
    (e : NodeEntry) (he : lookupN ka s.nodes = some e) :
    lookupN ka ((s.modifyNode ka f1).modifyNode kb f2).nodes
      = some (if ka = kb then f2 (f1 e) else f1 e) := by
  by_cases hk : ka = kb
  · subst hk
    rw [if_pos rfl]
    exact lookupN_modify_of_some _ _ _ _ (lookupN_modify_of_some _ _ _ _ he)
  · rw [if_neg hk, lookupN_modify_ne _ kb ka f2 hk]
    exact lookupN_modify_of_some _ _ _ _ he

theorem lookup_modify2_snd (s : Store) (ka kb : Key) (f1 f2 : NodeEntry → NodeEntry)
    (e : NodeEntry) (he : lookupN kb s.nodes = some e) :
    lookupN kb ((s.modifyNode ka f1).modifyNode kb f2).nodes
      = some (f2 (if ka = kb then f1 e else e)) := by
  by_cases hk : ka = kb
  · subst hk
    rw [if_pos rfl]
    exact lookupN_modify_of_some _ _ _ _ (lookupN_modify_of_some _ _ _ _ he)
  · rw [if_neg hk]
    exact lookupN_modify_of_some _ _ _ _
      ((lookupN_modify_ne _ ka kb f1 (Ne.symm hk)).trans he)

/-- C9: edge symmetry of `link` — for all live handles `a` and `b`, including
`a = b`, after `link(a, b)` the handle `b` occurs exactly once more in
`a.outgoing` and `a` occurs exactly once more in `b.incoming` than before,
and in particular they are then members of those lists (so `link(a,a)` puts
`a` in both of its own lists). -/
theorem C9_link_edge_symmetry (s : Store) (a b : Handle) (ea eb : NodeEntry)
    (ha : s.resolves a = true) (hb : s.resolves b = true)
    (hea : lookupN a.key s.nodes = some ea) (heb : lookupN b.key s.nodes = some eb) :
    ∃ ea2 eb2,
      lookupN a.key (unidirectional s a b).nodes = some ea2 ∧
      lookupN b.key (unidirectional s a b).nodes = some eb2 ∧
      ea2.outgoing.count b = ea.outgoing.count b + 1 ∧
      eb2.incoming.count a = eb.incoming.count a + 1 ∧
      b ∈ ea2.outgoing ∧ a ∈ eb2.incoming := by
  rw [unidirectional_live s a b ha hb]
  have h1 := lookup_modify2_fst s a.key b.key
    (fun e => { e with outgoing := e.outgoing ++ [b],
                       log := DagreEvent.To (s.labelOf b) :: e.log })
    (fun e => { e with incoming := e.incoming ++ [a],
                       log := DagreEvent.From (s.labelOf a) :: e.log }) ea hea
  have h2 := lookup_modify2_snd s a.key b.key
    (fun e => { e with outgoing := e.outgoing ++ [b],
                       log := DagreEvent.To (s.labelOf b) :: e.log })
    (fun e => { e with incoming := e.incoming ++ [a],
                       log := DagreEvent.From (s.labelOf a) :: e.log }) eb heb
  refine ⟨_, _, h1, h2, ?_, ?_, ?_, ?_⟩ <;>
    by_cases hk : a.key = b.key <;> simp [hk, List.count_append]

/-- Witness for C9 at the self-loop `link(a,a)` on a one-node store. -/
theorem C9_link_edge_symmetry_witness :
    ∃ ea2 eb2,
      lookupN 5 (unidirectional (run [Op.nodeO ⟨5, "x"⟩] emptyStore) ⟨5, 0⟩ ⟨5, 0⟩).nodes
          = some ea2 ∧
      lookupN 5 (unidirectional (run [Op.nodeO ⟨5, "x"⟩] emptyStore) ⟨5, 0⟩ ⟨5, 0⟩).nodes
          = some eb2 ∧
      ea2.outgoing.count ⟨5, 0⟩ = List.count (⟨5, 0⟩ : Handle) [] + 1 ∧
      eb2.incoming.count ⟨5, 0⟩ = List.count (⟨5, 0⟩ : Handle) [] + 1 ∧
      (⟨5, 0⟩ : Handle) ∈ ea2.outgoing ∧ (⟨5, 0⟩ : Handle) ∈ eb2.incoming :=
  C9_link_edge_symmetry (run [Op.nodeO ⟨5, "x"⟩] emptyStore) ⟨5, 0⟩ ⟨5, 0⟩
    { gen := 0, label := "x", incoming := [], outgoing := [],
      log := [DagreEvent.Add "x"] }
    { gen := 0, label := "x", incoming := [], outgoing := [],
      log := [DagreEvent.Add "x"] }
    (by decide) (by decide) (by decide) (by decide)

/-! ## Claim C4 -/

theorem bidirectional_live (s : Store) (a b : Handle)
    (ha : s.resolves a = true) (hb : s.resolves b = true) :
    bidirectional s a b
      = (s.modifyNode a.key fun e =>
          { e with outgoing := e.outgoing ++ [b],
                   incoming := e.incoming ++ [b],
                   log := DagreEvent.From (s.labelOf a)
                            :: DagreEvent.To (s.labelOf b) :: e.log }).modifyNode b.key
          (fun e =>
            { e with incoming := e.incoming ++ [a],
                     outgoing := e.outgoing ++ [a],
                     log := DagreEvent.To (s.labelOf a)
                              :: DagreEvent.From (s.labelOf a) :: e.log }) := by
  unfold bidirectional
  rw [if_pos ⟨ha, hb⟩]
  dsimp only
  rw [labelOf_modify s a.key
      (fun e => { e with outgoing := e.outgoing ++ [b],
                         incoming := e.incoming ++ [b],
                         log := DagreEvent.From (s.labelOf a)
                                  :: DagreEvent.To (s.labelOf b) :: e.log })
      (fun e => rfl) a]

/-- C4 as stated is false: after `link_bidi(a, b)` on the two-node store
with labels "A" (origin, key 0) and "B" (destination, key 1), the origin's
log is `[From "A", To "B", Add "A"]` — its `LinkedFrom` entry names the
origin's own label "A", not the peer's label "B" (no `From "B"` entry
exists), refuting "every one of these four entries names the label of the
peer". -/
theorem C4_counterexample :
    ((bidirectional (run [Op.nodeO ⟨0, "A"⟩, Op.nodeO ⟨1, "B"⟩] emptyStore)
          ⟨0, 0⟩ ⟨1, 1⟩).get_by ⟨0, 0⟩).map (fun e => e.log)
        = some [DagreEvent.From "A", DagreEvent.To "B", DagreEvent.Add "A"] ∧
      DagreEvent.From "B" ∉ [DagreEvent.From "A", DagreEvent.To "B", DagreEvent.Add "A"] ∧
      ("A" : Label) ≠ "B" :=
  ⟨rfl, by decide, by decide⟩

/-- C4 amended: for live handles with distinct keys, `link_bidi(a, b)`
appends both a `LinkedTo` and a `LinkedFrom` entry to each endpoint's log;
the destination's two entries and the origin's `LinkedTo` entry name the
peer's label, but the origin's `LinkedFrom` entry names the origin's own
label. -/
theorem C4_bidi_log_labels (s : Store) (a b : Handle) (ea eb : NodeEntry)
    (ha : s.resolves a = true) (hb : s.resolves b = true) (hk : a.key ≠ b.key)
    (hea : lookupN a.key s.nodes = some ea) (heb : lookupN b.key s.nodes = some eb) :
    ∃ ea2 eb2,
      lookupN a.key (bidirectional s a b).nodes = some ea2 ∧
      lookupN b.key (bidirectional s a b).nodes = some eb2 ∧
      ea2.log = DagreEvent.From ea.label :: DagreEvent.To eb.label :: ea.log ∧
      eb2.log = DagreEvent.To ea.label :: DagreEvent.From ea.label :: eb.log := by
  rw [bidirectional_live s a b ha hb]
  have la : s.labelOf a = ea.label := by simp [Store.labelOf, hea]
  have lb : s.labelOf b = eb.label := by simp [Store.labelOf, heb]
  have h1 := lookup_modify2_fst s a.key b.key
    (fun e => { e with outgoing := e.outgoing ++ [b],
                       incoming := e.incoming ++ [b],
                       log := DagreEvent.From (s.labelOf a)
                                :: DagreEvent.To (s.labelOf b) :: e.log })
    (fun e => { e with incoming := e.incoming ++ [a],
                       outgoing := e.outgoing ++ [a],
                       log := DagreEvent.To (s.labelOf a)
                                :: DagreEvent.From (s.labelOf a) :: e.log }) ea hea
  have h2 := lookup_modify2_snd s a.key b.key
    (fun e => { e with outgoing := e.outgoing ++ [b],
                       incoming := e.incoming ++ [b],
                       log := DagreEvent.From (s.labelOf a)
                                :: DagreEvent.To (s.labelOf b) :: e.log })
    (fun e => { e with incoming := e.incoming ++ [a],
                       outgoing := e.outgoing ++ [a],
                       log := DagreEvent.To (s.labelOf a)
                                :: DagreEvent.From (s.labelOf a) :: e.log }) eb heb
  rw [if_neg hk] at h1 h2
  exact ⟨_, _, h1, h2, by simp [la, lb], by simp [la, lb]⟩

/-- Witness for the amended C4 on the two-node store with labels "A", "B". -/
theorem C4_bidi_log_labels_witness :
    ∃ ea2 eb2,
      lookupN 0 (bidirectional (run [Op.nodeO ⟨0, "A"⟩, Op.nodeO ⟨1, "B"⟩] emptyStore)
          ⟨0, 0⟩ ⟨1, 1⟩).nodes = some ea2 ∧
      lookupN 1 (bidirectional (run [Op.nodeO ⟨0, "A"⟩, Op.nodeO ⟨1, "B"⟩] emptyStore)
          ⟨0, 0⟩ ⟨1, 1⟩).nodes = some eb2 ∧
      ea2.log = DagreEvent.From "A" :: DagreEvent.To "B" :: [DagreEvent.Add "A"] ∧
      eb2.log = DagreEvent.To "A" :: DagreEvent.From "A" :: [DagreEvent.Add "B"] :=
  C4_bidi_log_labels (run [Op.nodeO ⟨0, "A"⟩, Op.nodeO ⟨1, "B"⟩] emptyStore)
    ⟨0, 0⟩ ⟨1, 1⟩
    { gen := 0, label := "A", incoming := [], outgoing := [], log := [DagreEvent.Add "A"] }
    { gen := 1, label := "B", incoming := [], outgoing := [], log := [DagreEvent.Add "B"] }
    (by decide) (by decide) (by decide) (by decide) (by decide)

/-! ## Claim C1 -/

theorem join_append_str (l1 l2 : List String) :
    String.join (l1 ++ l2) = String.join l1 ++ String.join l2 := by
  apply String.ext
  simp [String.join_eq]

/-- C1 as stated is false: in the store built by inserting "A" (key 0) and
"B" (key 1) and linking 0 → 1, node 0's ring log holds two entries with
`To "B"` the most recently appended, yet `dumps` emits the bytes of the
older `Add "A"` entry first — not the most recently appended entry first as
the claim (`dumpsNewestFirst`) demands. -/
theorem C1_counterexample :
    ((run [Op.nodeO ⟨0, "A"⟩, Op.nodeO ⟨1, "B"⟩, Op.linkO ⟨0, 0⟩ ⟨1, 1⟩]
          emptyStore).get_by ⟨0, 0⟩).map (fun e => e.log)
        = some [DagreEvent.To "B", DagreEvent.Add "A"] ∧
      dumps [DagreEvent.To "B", DagreEvent.Add "A"]
        ≠ dumpsNewestFirst [DagreEvent.To "B", DagreEvent.Add "A"] ∧
      dumps [DagreEvent.To "B", DagreEvent.Add "A"]
        = eventToString (DagreEvent.Add "A") ++ eventToString (DagreEvent.To "B") :=
  ⟨rfl, by decide, rfl⟩

/-- C1 amended: `dump_log` writes the log entries in chronological order —
the oldest entry's bytes come first and the most recently appended entry
(the front of the ring buffer) is written last. -/
theorem C1_dumps_oldest_first (e : DagreEvent) (rest : List DagreEvent) :
    dumps (e :: rest) = dumps rest ++ eventToString e := by
  unfold dumps
  rw [List.reverse_cons, List.map_append, join_append_str]
  apply String.ext
  simp [String.join_eq]

/-! ## Well-formedness and handle-staleness preservation -/

theorem lookupN_eq_none_forall (k : Key) :
    ∀ l : List (Key × NodeEntry), lookupN k l = none → ∀ kv ∈ l, kv.1 ≠ k
  | [], _, kv, hkv => absurd hkv (List.not_mem_nil kv)
  | kv0 :: rest, hl, kv, hkv => by
      by_cases h : kv0.1 = k
      · rw [lookupN, if_pos h] at hl
        exact absurd hl (Option.some_ne_none kv0.2)
      · rw [lookupN, if_neg h] at hl
        rcases List.mem_cons.mp hkv with heq | hmem
        · rw [heq]; exact h
        · exact lookupN_eq_none_forall k rest hl kv hmem

theorem WF_empty : WF emptyStore :=
  ⟨List.Pairwise.nil, fun kv hkv => absurd hkv (List.not_mem_nil kv)⟩

theorem WF_modify (s : Store) (k : Key) (f : NodeEntry → NodeEntry)
    (hf : ∀ e, (f e).gen = e.gen) (hWF : WF s) : WF (s.modifyNode k f) := by
  obtain ⟨hpw, hg⟩ := hWF
  have hp : ∀ c : Key × NodeEntry, (if c.1 = k then (c.1, f c.2) else c).1 = c.1 := by
    intro c; split <;> rfl
  constructor
  · show List.Pairwise _ (s.nodes.map _)
    rw [List.pairwise_map]
    apply hpw.imp
    intro a b hab
    rw [hp a, hp b]
    exact hab
  · intro kv hkv
    obtain ⟨kv2, hmem, hsub⟩ := List.mem_map.mp hkv
    have hlt := hg kv2 hmem
    subst hsub
    show (if kv2.1 = k then (kv2.1, f kv2.2) else kv2).2.gen < s.nextGen
    by_cases h : kv2.1 = k
    · rw [if_pos h]
      show (f kv2.2).gen < s.nextGen
      rw [hf kv2.2]
      exact hlt
    · rw [if_neg h]
      exact hlt

theorem WF_removeKey (s : Store) (k : Key) (hWF : WF s) : WF (s.removeKey k) := by
  obtain ⟨hpw, hg⟩ := hWF
  exact ⟨hpw.sublist (List.filter_sublist s.nodes),
    fun kv hkv => hg kv (List.mem_of_mem_filter hkv)⟩

theorem WF_nodeOp (s : Store) (p : Payload) (hWF : WF s) : WF (nodeOp s p).1 := by
  obtain ⟨hpw, hg⟩ := hWF
  unfold nodeOp
  cases hl : lookupN p.key s.nodes with
  | some e => exact ⟨hpw, hg⟩
  | none =>
      constructor
      · exact List.Pairwise.cons
          (fun kv hkv => (lookupN_eq_none_forall p.key s.nodes hl kv hkv).symm) hpw
      · intro kv hkv
        rcases List.mem_cons.mp hkv with heq | hmem
        · rw [heq]; exact Nat.lt_succ_self s.nextGen
        · exact Nat.lt_succ_of_lt (hg kv hmem)

theorem WF_cleanupStep (fo : Bool) (lab : Label) (acc : Store) (nb : Handle)
    (hWF : WF acc) : WF (cleanupStep fo lab acc nb) := by
  unfold cleanupStep
  by_cases hr : acc.resolves nb
  · rw [if_pos hr]
    exact WF_modify acc nb.key _ (by intro e; cases fo <;> rfl) hWF
  · rw [if_neg hr]; exact hWF

theorem WF_cleanupFold (fo : Bool) (lab : Label) :
    ∀ (L : List Handle) (acc : Store), WF acc → WF (L.foldl (cleanupStep fo lab) acc)
  | [], _, hWF => hWF
  | nb :: rest, acc, hWF => by
      rw [List.foldl_cons]
      exact WF_cleanupFold fo lab rest _ (WF_cleanupStep fo lab acc nb hWF)

theorem WF_invalidate_from (incs outs : List Handle) (lab : Label) (s : Store)
    (hWF : WF s) : WF (invalidate_from incs outs lab s) :=
  WF_cleanupFold false lab outs _ (WF_cleanupFold true lab incs s hWF)

theorem WF_unidirectional (s : Store) (a b : Handle) (hWF : WF s) :
    WF (unidirectional s a b) := by
  unfold unidirectional
  split
  · exact WF_modify _ b.key _ (fun e => rfl)
      (WF_modify s a.key _ (fun e => rfl) hWF)
  · exact hWF

theorem WF_bidirectional (s : Store) (a b : Handle) (hWF : WF s) :
    WF (bidirectional s a b) := by
  unfold bidirectional
  split
  · exact WF_modify _ b.key _ (fun e => rfl)
      (WF_modify s a.key _ (fun e => rfl) hWF)
  · exact hWF

theorem WF_unlink (s : Store) (a b : Handle) (hWF : WF s) : WF (unlink s a b) := by
  unfold unlink
  split
  · apply WF_modify _ b.key _ ?hf2 (WF_modify s a.key _ ?hf1 hWF)
    case hf1 =>
      intro e
      cases hfi : e.outgoing.findIdx? (matchesTarget s b) <;> simp [hfi]
    case hf2 =>
      intro e
      cases hfi : e.incoming.findIdx? (matchesTarget _ a) <;> simp [hfi]
  · exact hWF

theorem evict_live (s : Store) (a : Handle) (e : NodeEntry)
    (hl : lookupN a.key s.nodes = some e) (hg : (e.gen == a.gen) = true) :
    evict s a = invalidate_from e.incoming e.outgoing e.label (s.removeKey a.key) := by
  unfold evict
  rw [hl]
  simp only [hg, if_true]

theorem WF_evict (s : Store) (a : Handle) (hWF : WF s) : WF (evict s a) := by
  cases hr : s.resolves a with
  | false => rw [evict_stale s a hr]; exact hWF
  | true =>
      unfold Store.resolves at hr
      cases hl : lookupN a.key s.nodes with
      | none => rw [hl] at hr; exact absurd hr (by simp)
      | some e =>
          rw [hl] at hr
          rw [evict_live s a e hl hr]
          exact WF_invalidate_from _ _ _ _ (WF_removeKey s a.key hWF)

theorem WF_applyOp (s : Store) (op : Op) (hWF : WF s) : WF (applyOp s op) := by
  cases op with
  | nodeO p => exact WF_nodeOp s p hWF
  | linkO a b => exact WF_unidirectional s a b hWF
  | bidiO a b => exact WF_bidirectional s a b hWF
  | unlinkO a b => exact WF_unlink s a b hWF
  | evictO a => exact WF_evict s a hWF

theorem nextGen_unidirectional (s : Store) (a b : Handle) :
    (unidirectional s a b).nextGen = s.nextGen := by
  unfold unidirectional; split <;> rfl

theorem nextGen_bidirectional (s : Store) (a b : Handle) :
    (bidirectional s a b).nextGen = s.nextGen := by
  unfold bidirectional; split <;> rfl

theorem nextGen_unlink (s : Store) (a b : Handle) :
    (unlink s a b).nextGen = s.nextGen := by
  unfold unlink; split <;> rfl

theorem nextGen_evict (s : Store) (a : Handle) :
    (evict s a).nextGen = s.nextGen := by
  cases hr : s.resolves a with
  | false => rw [evict_stale s a hr]
  | true =>
      unfold Store.resolves at hr
      cases hl : lookupN a.key s.nodes with
      | none => rw [hl] at hr; exact absurd hr (by simp)
      | some e =>
          rw [hl] at hr
          rw [evict_live s a e hl hr, invalidate_from_nextGen]
          rfl

theorem nextGen_applyOp_le (s : Store) (op : Op) :
    s.nextGen ≤ (applyOp s op).nextGen := by
  cases op with
  | nodeO p =>
      show s.nextGen ≤ (nodeOp s p).1.nextGen
      unfold nodeOp
      cases hl : lookupN p.key s.nodes with
      | some e => exact Nat.le_refl _
      | none => exact Nat.le_succ _
  | linkO a b => exact Nat.le_of_eq (nextGen_unidirectional s a b).symm
  | bidiO a b => exact Nat.le_of_eq (nextGen_bidirectional s a b).symm
  | unlinkO a b => exact Nat.le_of_eq (nextGen_unlink s a b).symm
  | evictO a => exact Nat.le_of_eq (nextGen_evict s a).symm

theorem resolves_unidirectional (s : Store) (a b h : Handle) :
    (unidirectional s a b).resolves h = s.resolves h := by
  unfold unidirectional
  split
  · rw [resolves_modify, resolves_modify]
    all_goals intro e
    all_goals rfl
  · rfl

theorem resolves_bidirectional (s : Store) (a b h : Handle) :
    (bidirectional s a b).resolves h = s.resolves h := by
  unfold bidirectional
  split
  · rw [resolves_modify, resolves_modify]
    all_goals intro e
    all_goals rfl
  · rfl

theorem resolves_unlink (s : Store) (a b h : Handle) :
    (unlink s a b).resolves h = s.resolves h := by
  unfold unlink
  split
  · rw [resolves_modify, resolves_modify]
    all_goals intro e
    all_goals split
    all_goals rfl
  · rfl

theorem resolves_removeKey_self_key (s : Store) (k : Key) (h : Handle)
    (hk : h.key = k) : (s.removeKey k).resolves h = false := by
  unfold Store.resolves
  have hn : lookupN h.key (s.removeKey k).nodes = none := by
    rw [hk]
    exact lookupN_removeKey_self k s.nodes
  rw [hn]

theorem resolves_removeKey_other (s : Store) (k : Key) (h : Handle)
    (hk : h.key ≠ k) : (s.removeKey k).resolves h = s.resolves h := by
  unfold Store.resolves
  have hn : lookupN h.key (s.removeKey k).nodes = lookupN h.key s.nodes :=
    lookupN_removeKey_ne k h.key hk s.nodes
  rw [hn]

theorem resolves_evict_self (s : Store) (a : Handle) :
    (evict s a).resolves a = false := by
  cases hr : s.resolves a with
  | false => rw [evict_stale s a hr]; exact hr
  | true =>
      unfold Store.resolves at hr
      cases hl : lookupN a.key s.nodes with
      | none => rw [hl] at hr; exact absurd hr (by simp)
      | some e =>
          rw [hl] at hr
          rw [evict_live s a e hl hr, invalidate_from_resolves]
          exact resolves_removeKey_self_key s a.key a rfl

theorem resolves_evict_false (s : Store) (a h : Handle)
    (hres : s.resolves h = false) : (evict s a).resolves h = false := by
  cases hr : s.resolves a with
  | false => rw [evict_stale s a hr]; exact hres
  | true =>
      unfold Store.resolves at hr
      cases hl : lookupN a.key s.nodes with
      | none => rw [hl] at hr; exact absurd hr (by simp)
      | some e =>
          rw [hl] at hr
          rw [evict_live s a e hl hr, invalidate_from_resolves]
          by_cases hk : h.key = a.key
          · exact resolves_removeKey_self_key s a.key h hk
          · rw [resolves_removeKey_other s a.key h hk]
            exact hres

theorem resolves_nodeOp_stale (s : Store) (p : Payload) (h : Handle)
    (hres : s.resolves h = false) (hgen : h.gen < s.nextGen) :
    (nodeOp s p).1.resolves h = false := by
  unfold nodeOp
  cases hl : lookupN p.key s.nodes with
  | some e => exact hres
  | none =>
      unfold Store.resolves at hres ⊢
      dsimp only
      simp only [lookupN]
      by_cases hk : p.key = h.key
      · rw [if_pos hk]
        simp only []
        have hne : s.nextGen ≠ h.gen := Nat.ne_of_gt hgen
        simpa using hne
      · rw [if_neg hk]
        exact hres

theorem stale_applyOp (s : Store) (op : Op) (h : Handle)
    (hres : s.resolves h = false) (hgen : h.gen < s.nextGen) :
    (applyOp s op).resolves h = false := by
  cases op with
  | nodeO p => exact resolves_nodeOp_stale s p h hres hgen
  | linkO a b => rw [applyOp, resolves_unidirectional]; exact hres
  | bidiO a b => rw [applyOp, resolves_bidirectional]; exact hres
  | unlinkO a b => rw [applyOp, resolves_unlink]; exact hres
  | evictO a => exact resolves_evict_false s a h hres

theorem stale_run : ∀ (ops : List Op) (s : Store) (h : Handle),
    s.resolves h = false → h.gen < s.nextGen →
      (run ops s).resolves h = false ∧ h.gen < (run ops s).nextGen
  | [], s, h, hres, hgen => ⟨hres, hgen⟩
  | op :: rest, s, h, hres, hgen => by
      show (run rest (applyOp s op)).resolves h = false ∧
        h.gen < (run rest (applyOp s op)).nextGen
      exact stale_run rest (applyOp s op) h (stale_applyOp s op h hres hgen)
        (Nat.lt_of_lt_of_le hgen (nextGen_applyOp_le s op))

theorem size_cleanupStep (fo : Bool) (lab : Label) (acc : Store) (nb : Handle) :
    (cleanupStep fo lab acc nb).size = acc.size := by
  unfold cleanupStep
  by_cases hr : acc.resolves nb
  · rw [if_pos hr, size_modify]
  · rw [if_neg hr]

theorem size_cleanupFold (fo : Bool) (lab : Label) :
    ∀ (L : List Handle) (acc : Store),
      (L.foldl (cleanupStep fo lab) acc).size = acc.size
  | [], _ => rfl
  | nb :: rest, acc => by
      rw [List.foldl_cons, size_cleanupFold fo lab rest, size_cleanupStep]

theorem size_invalidate_from (incs outs : List Handle) (lab : Label) (s : Store) :
    (invalidate_from incs outs lab s).size = s.size := by
  unfold invalidate_from
  rw [size_cleanupFold, size_cleanupFold]

theorem length_filter_ne_of_lookup (k : Key) :
    ∀ l : List (Key × NodeEntry), List.Pairwise (fun x y => x.1 ≠ y.1) l →
      ∀ e : NodeEntry, lookupN k l = some e →
        (l.filter fun kv => kv.1 ≠ k).length + 1 = l.length
  | [], _, e, he => by cases he
  | kv :: rest, hpw, e, he => by
      by_cases h : kv.1 = k
      · rw [List.filter_cons_of_neg (by simpa using h)]
        have hall : ∀ kv2 ∈ rest, kv2.1 ≠ k := by
          intro kv2 hm hk2
          exact (List.pairwise_cons.mp hpw).1 kv2 hm (h.trans hk2.symm)
        rw [List.filter_eq_self.mpr (by intro kv2 hm; simpa using hall kv2 hm)]
        rfl
      · rw [List.filter_cons_of_pos (by simpa using h)]
        rw [lookupN, if_neg h] at he
        have ih := length_filter_ne_of_lookup k rest (List.pairwise_cons.mp hpw).2 e he
        show ((kv :: rest.filter fun kv => kv.1 ≠ k) : List (Key × NodeEntry)).length + 1
          = rest.length + 1
        rw [List.length_cons, ih]

theorem size_evict_live (s : Store) (a : Handle) (hWF : WF s)
    (ha : s.resolves a = true) : (evict s a).size + 1 = s.size := by
  unfold Store.resolves at ha
  cases hl : lookupN a.key s.nodes with
  | none => rw [hl] at ha; exact absurd ha (by simp)
  | some e =>
      rw [hl] at ha
      rw [evict_live s a e hl ha, size_invalidate_from]
      exact length_filter_ne_of_lookup a.key s.nodes hWF.1 e hl

theorem WF_run : ∀ (ops : List Op) (s : Store), WF s → WF (run ops s)
  | [], _, hWF => hWF
  | op :: rest, s, hWF => WF_run rest (applyOp s op) (WF_applyOp s op hWF)

theorem nodeOp_fresh_handle (t : Store) (p : Payload) (h : Handle)
    (hres : t.resolves h = false) (hgen : h.gen < t.nextGen) :
    (nodeOp t p).2 ≠ h := by
  unfold nodeOp
  cases hl : lookupN p.key t.nodes with
  | some e =>
      intro heq
      have hk : p.key = h.key := congrArg Handle.key heq
      have hg : e.gen = h.gen := congrArg Handle.gen heq
      unfold Store.resolves at hres
      rw [← hk, hl] at hres
      simp at hres
      exact hres hg
  | none =>
      intro heq
      have hg : t.nextGen = h.gen := congrArg Handle.gen heq
      exact Nat.ne_of_gt hgen hg

theorem lookupN_mem (k : Key) :
    ∀ l : List (Key × NodeEntry), ∀ e : NodeEntry,
      lookupN k l = some e → (k, e) ∈ l
  | [], e, h => by cases h
  | kv :: rest, e, h => by
      by_cases hh : kv.1 = k
      · rw [lookupN, if_pos hh] at h
        have h2 : kv.2 = e := Option.some.inj h
        exact List.mem_cons.mpr (Or.inl (by rw [← hh, ← h2]))
      · rw [lookupN, if_neg hh] at h
        exact List.mem_cons.mpr (Or.inr (lookupN_mem k rest e h))

theorem gen_lt_of_resolves (s : Store) (a : Handle) (hWF : WF s)
    (ha : s.resolves a = true) : a.gen < s.nextGen := by
  unfold Store.resolves at ha
  cases hl : lookupN a.key s.nodes with
  | none => rw [hl] at ha; exact absurd ha (by simp)
  | some e =>
      rw [hl] at ha
      have hg : e.gen = a.gen := by simpa using ha
      rw [← hg]
      exact hWF.2 (a.key, e) (lookupN_mem a.key s.nodes e hl)

/-! ## Claim C7 -/

/-- C7: for a live handle `a`, `evict(a)` decreases the store size by exactly
1 and `resolve(a)` returns absent from then on permanently — after any
further operation sequence `a` still fails to resolve, and any upsert of a
payload (in particular one with `a`'s key) in any later state returns a
handle distinct from `a`. -/
theorem C7_evict_terminal (s : Store) (a : Handle) (hWF : WF s)
    (ha : s.resolves a = true) :
    (evict s a).size + 1 = s.size ∧
      (evict s a).resolves a = false ∧
      (∀ ops, (run ops (evict s a)).resolves a = false) ∧
      (∀ ops p, p.key = a.key → (nodeOp (run ops (evict s a)) p).2 ≠ a) := by
  have hgen : a.gen < (evict s a).nextGen := by
    rw [nextGen_evict]
    exact gen_lt_of_resolves s a hWF ha
  refine ⟨size_evict_live s a hWF ha, resolves_evict_self s a, ?_, ?_⟩
  · intro ops
    exact (stale_run ops (evict s a) a (resolves_evict_self s a) hgen).1
  · intro ops p _
    have hst := stale_run ops (evict s a) a (resolves_evict_self s a) hgen
    exact nodeOp_fresh_handle (run ops (evict s a)) p a hst.1 hst.2

/-- Witness for C7 on the two-node store with keys 0 and 1, evicting key 0. -/
theorem C7_evict_terminal_witness :
    (evict (run [Op.nodeO ⟨0, "A"⟩, Op.nodeO ⟨1, "B"⟩] emptyStore) ⟨0, 0⟩).size + 1
        = (run [Op.nodeO ⟨0, "A"⟩, Op.nodeO ⟨1, "B"⟩] emptyStore).size ∧
      (evict (run [Op.nodeO ⟨0, "A"⟩, Op.nodeO ⟨1, "B"⟩] emptyStore) ⟨0, 0⟩).resolves
          ⟨0, 0⟩ = false ∧
      (∀ ops, (run ops (evict (run [Op.nodeO ⟨0, "A"⟩, Op.nodeO ⟨1, "B"⟩] emptyStore)
          ⟨0, 0⟩)).resolves ⟨0, 0⟩ = false) ∧
      (∀ ops p, p.key = Handle.key ⟨0, 0⟩ →
        (nodeOp (run ops (evict (run [Op.nodeO ⟨0, "A"⟩, Op.nodeO ⟨1, "B"⟩] emptyStore)
          ⟨0, 0⟩)) p).2 ≠ ⟨0, 0⟩) :=
  C7_evict_terminal (run [Op.nodeO ⟨0, "A"⟩, Op.nodeO ⟨1, "B"⟩] emptyStore) ⟨0, 0⟩
    (by constructor
        · decide
        · decide)
    (by decide)

/-! ## Claim C2 -/

/-- C2 fails on the code: the per-node log is `DagreRingLog<'a, 20>` but
`write` only `push_front`s and never drops an entry, so the log exceeds the
capacity 20.  From the empty store, inserting key 0 and self-linking it ten
times leaves node 0's log with 21 entries. -/
theorem C2_ring_log_overflow :
    ((run (Op.nodeO ⟨0, "N"⟩ :: List.replicate 10 (Op.linkO ⟨0, 0⟩ ⟨0, 0⟩))
          emptyStore).get_by ⟨0, 0⟩).map (fun e => e.log.length) = some 21 ∧
      ¬ (21 ≤ 20) :=
  ⟨rfl, by decide⟩

/-! ## Claim C6 -/

theorem matchesTarget_modify (s : Store) (k : Key) (f : NodeEntry → NodeEntry)
    (hf : ∀ e, (f e).gen = e.gen) (t : Handle) :
    matchesTarget (s.modifyNode k f) t = matchesTarget s t := by
  funext o
  unfold matchesTarget
  rw [resolves_modify s k f hf o]

theorem unlink_live (s : Store) (a b : Handle)
    (ha : s.resolves a = true) (hb : s.resolves b = true) :
    unlink s a b
      = (s.modifyNode a.key fun e =>
          match e.outgoing.findIdx? (matchesTarget s b) with
          | some pos => { e with outgoing := e.outgoing.eraseIdx pos }
          | none => e).modifyNode b.key
          (fun e =>
            match e.incoming.findIdx? (matchesTarget s a) with
            | some pos => { e with incoming := e.incoming.eraseIdx pos }
            | none => e) := by
  unfold unlink
  rw [if_pos ⟨ha, hb⟩]
  dsimp only
  rw [matchesTarget_modify s a.key
      (fun e => match e.outgoing.findIdx? (matchesTarget s b) with
        | some pos => { e with outgoing := e.outgoing.eraseIdx pos }
        | none => e)
      (fun e => by cases hfi : e.outgoing.findIdx? (matchesTarget s b) <;> simp [hfi]) a]

theorem findIdx_eraseIdx_eq_removeFirst (p : Handle → Bool) :
    ∀ l : List Handle,
      (match l.findIdx? p with
       | some pos => l.eraseIdx pos
       | none => l) = removeFirst p l
  | [] => rfl
  | x :: xs => by
      by_cases h : p x = true
      · rw [List.findIdx?_cons, if_pos h]
        rw [removeFirst, if_pos h]
        rfl
      · rw [List.findIdx?_cons, if_neg h, List.findIdx?_succ]
        rw [removeFirst, if_neg h]
        have ih := findIdx_eraseIdx_eq_removeFirst p xs
        cases hfi : xs.findIdx? p with
        | none =>
            have ih2 : xs = removeFirst p xs := by rw [hfi] at ih; exact ih
            simp only [hfi, Option.map_none']
            rw [← ih2]
        | some i =>
            have ih2 : xs.eraseIdx i = removeFirst p xs := by rw [hfi] at ih; exact ih
            simp only [hfi, Option.map_some']
            show (x :: xs).eraseIdx (i + 1) = x :: removeFirst p xs
            rw [List.eraseIdx_cons_succ, ih2]

theorem removeFirst_spec (p : Handle → Bool) :
    ∀ l : List Handle, l.any p = true →
      ∃ l1 x l2, l = l1 ++ x :: l2 ∧ (∀ y ∈ l1, p y = false) ∧ p x = true ∧
        removeFirst p l = l1 ++ l2
  | [], h => by cases h
  | x :: xs, h => by
      by_cases hx : p x = true
      · refine ⟨[], x, xs, rfl, ?_, hx, ?_⟩
        · intro y hy
          exact absurd hy (List.not_mem_nil y)
        · rw [removeFirst, if_pos hx]
          rfl
      · have hx2 : p x = false := by simpa using hx
        have hxs : xs.any p = true := by
          rw [List.any_cons] at h
          simpa [hx2] using h
        obtain ⟨l1, y, l2, heq, hpre, hpy, hrm⟩ := removeFirst_spec p xs hxs
        refine ⟨x :: l1, y, l2, by rw [List.cons_append, heq], ?_, hpy, ?_⟩
        · intro z hz
          rcases List.mem_cons.mp hz with hz1 | hz2
          · rw [hz1]; exact hx2
          · exact hpre z hz2
        · rw [removeFirst, if_neg hx, hrm]
          rfl

theorem unlinkOut_outgoing (p : Handle → Bool) (e : NodeEntry) :
    (match e.outgoing.findIdx? p with
     | some pos => { e with outgoing := e.outgoing.eraseIdx pos }
     | none => e).outgoing = removeFirst p e.outgoing := by
  rw [← findIdx_eraseIdx_eq_removeFirst]
  cases e.outgoing.findIdx? p <;> rfl

theorem unlinkOut_incoming (p : Handle → Bool) (e : NodeEntry) :
    (match e.outgoing.findIdx? p with
     | some pos => { e with outgoing := e.outgoing.eraseIdx pos }
     | none => e).incoming = e.incoming := by
  cases e.outgoing.findIdx? p <;> rfl

theorem unlinkInc_incoming (p : Handle → Bool) (e : NodeEntry) :
    (match e.incoming.findIdx? p with
     | some pos => { e with incoming := e.incoming.eraseIdx pos }
     | none => e).incoming = removeFirst p e.incoming := by
  rw [← findIdx_eraseIdx_eq_removeFirst]
  cases e.incoming.findIdx? p <;> rfl

theorem unlinkInc_outgoing (p : Handle → Bool) (e : NodeEntry) :
    (match e.incoming.findIdx? p with
     | some pos => { e with incoming := e.incoming.eraseIdx pos }
     | none => e).outgoing = e.outgoing := by
  cases e.incoming.findIdx? p <;> rfl

/-- C6: for live handles `a`, `b` joined by at least one a→b edge (stated:
some entry of `a.outgoing` resolves to `b`, and some entry of `b.incoming`
resolves to `a`), `unlink(a, b)` removes exactly one matching occurrence:
it removes the first entry of `a.outgoing` whose resolved target equals `b`
— the scan resolves each candidate and passes over entries that do not
resolve, which (like every other unrelated entry) stay in the list — and the
first entry of `b.incoming` resolving to `a`, decreasing each of the two
list lengths by exactly 1; the count of matching entries drops by exactly 1,
so parallel edges are removed one per call. -/
theorem C6_unlink_removes_first_match (s : Store) (a b : Handle) (ea eb : NodeEntry)
    (ha : s.resolves a = true) (hb : s.resolves b = true)
    (hea : lookupN a.key s.nodes = some ea) (heb : lookupN b.key s.nodes = some eb)
    (hedge_out : ea.outgoing.any (matchesTarget s b) = true)
    (hedge_in : eb.incoming.any (matchesTarget s a) = true) :
    ∃ ea2 eb2 pre x suf pre2 y suf2,
      lookupN a.key (unlink s a b).nodes = some ea2 ∧
      lookupN b.key (unlink s a b).nodes = some eb2 ∧
      ea.outgoing = pre ++ x :: suf ∧
      (∀ z ∈ pre, matchesTarget s b z = false) ∧ matchesTarget s b x = true ∧
      ea2.outgoing = pre ++ suf ∧
      eb.incoming = pre2 ++ y :: suf2 ∧
      (∀ z ∈ pre2, matchesTarget s a z = false) ∧ matchesTarget s a y = true ∧
      eb2.incoming = pre2 ++ suf2 ∧
      ea2.outgoing.length + 1 = ea.outgoing.length ∧
      eb2.incoming.length + 1 = eb.incoming.length ∧
      ea2.outgoing.countP (matchesTarget s b) + 1
        = ea.outgoing.countP (matchesTarget s b) ∧
      eb2.incoming.countP (matchesTarget s a) + 1
        = eb.incoming.countP (matchesTarget s a) := by
  rw [unlink_live s a b ha hb]
  have h1 := lookup_modify2_fst s a.key b.key
    (fun e => match e.outgoing.findIdx? (matchesTarget s b) with
      | some pos => { e with outgoing := e.outgoing.eraseIdx pos }
      | none => e)
    (fun e => match e.incoming.findIdx? (matchesTarget s a) with
      | some pos => { e with incoming := e.incoming.eraseIdx pos }
      | none => e) ea hea
  have h2 := lookup_modify2_snd s a.key b.key
    (fun e => match e.outgoing.findIdx? (matchesTarget s b) with
      | some pos => { e with outgoing := e.outgoing.eraseIdx pos }
      | none => e)
    (fun e => match e.incoming.findIdx? (matchesTarget s a) with
      | some pos => { e with incoming := e.incoming.eraseIdx pos }
      | none => e) eb heb
  obtain ⟨pre, x, suf, hdec, hpre, hpx, hrm⟩ :=
    removeFirst_spec (matchesTarget s b) ea.outgoing hedge_out
  obtain ⟨pre2, y, suf2, hdec2, hpre2, hpy, hrm2⟩ :=
    removeFirst_spec (matchesTarget s a) eb.incoming hedge_in
  have ho : ∀ w : NodeEntry,
      (if a.key = b.key
        then (fun e : NodeEntry => match e.incoming.findIdx? (matchesTarget s a) with
          | some pos => { e with incoming := e.incoming.eraseIdx pos }
          | none => e)
          ((fun e : NodeEntry => match e.outgoing.findIdx? (matchesTarget s b) with
            | some pos => { e with outgoing := e.outgoing.eraseIdx pos }
            | none => e) w)
        else (fun e : NodeEntry => match e.outgoing.findIdx? (matchesTarget s b) with
          | some pos => { e with outgoing := e.outgoing.eraseIdx pos }
          | none => e) w).outgoing
        = removeFirst (matchesTarget s b) w.outgoing := by
    intro w
    by_cases hk : a.key = b.key
    · rw [if_pos hk]
      show ((fun e : NodeEntry => match e.incoming.findIdx? (matchesTarget s a) with
        | some pos => { e with incoming := e.incoming.eraseIdx pos }
        | none => e)
        ((fun e : NodeEntry => match e.outgoing.findIdx? (matchesTarget s b) with
          | some pos => { e with outgoing := e.outgoing.eraseIdx pos }
          | none => e) w)).outgoing = _
      rw [unlinkInc_outgoing, unlinkOut_outgoing]
    · rw [if_neg hk]
      exact unlinkOut_outgoing (matchesTarget s b) w
  have hi : ∀ w : NodeEntry,
      ((fun e : NodeEntry => match e.incoming.findIdx? (matchesTarget s a) with
          | some pos => { e with incoming := e.incoming.eraseIdx pos }
          | none => e)
        (if a.key = b.key
          then (fun e : NodeEntry => match e.outgoing.findIdx? (matchesTarget s b) with
            | some pos => { e with outgoing := e.outgoing.eraseIdx pos }
            | none => e) w
          else w)).incoming
        = removeFirst (matchesTarget s a) w.incoming := by
    intro w
    by_cases hk : a.key = b.key
    · rw [if_pos hk]
      show ((fun e : NodeEntry => match e.incoming.findIdx? (matchesTarget s a) with
        | some pos => { e with incoming := e.incoming.eraseIdx pos }
        | none => e)
        ((fun e : NodeEntry => match e.outgoing.findIdx? (matchesTarget s b) with
          | some pos => { e with outgoing := e.outgoing.eraseIdx pos }
          | none => e) w)).incoming = _
      rw [unlinkInc_incoming, unlinkOut_incoming]
    · rw [if_neg hk]
      exact unlinkInc_incoming (matchesTarget s a) w
  refine ⟨_, _, pre, x, suf, pre2, y, suf2, h1, h2, hdec, hpre, hpx, ?_, hdec2,
    hpre2, hpy, ?_, ?_, ?_, ?_, ?_⟩
  · rw [ho ea, hrm]
  · rw [hi eb, hrm2]
  · rw [ho ea, hrm, hdec]
    simp [List.length_append]
    omega
  · rw [hi eb, hrm2, hdec2]
    simp [List.length_append]
    omega
  · rw [ho ea, hrm, hdec]
    simp [List.countP_append, List.countP_cons, hpx]
    omega
  · rw [hi eb, hrm2, hdec2]
    simp [List.countP_append, List.countP_cons, hpy]
    omega

/-- Witness for C6 on a store with two parallel 0 → 1 edges. -/
theorem C6_unlink_removes_first_match_witness :
    ∃ ea2 eb2 pre x suf pre2 y suf2,
      lookupN 0 (unlink (run [Op.nodeO ⟨0, "A"⟩, Op.nodeO ⟨1, "B"⟩,
          Op.linkO ⟨0, 0⟩ ⟨1, 1⟩, Op.linkO ⟨0, 0⟩ ⟨1, 1⟩] emptyStore)
          ⟨0, 0⟩ ⟨1, 1⟩).nodes = some ea2 ∧
      lookupN 1 (unlink (run [Op.nodeO ⟨0, "A"⟩, Op.nodeO ⟨1, "B"⟩,
          Op.linkO ⟨0, 0⟩ ⟨1, 1⟩, Op.linkO ⟨0, 0⟩ ⟨1, 1⟩] emptyStore)
          ⟨0, 0⟩ ⟨1, 1⟩).nodes = some eb2 ∧
      ([⟨1, 1⟩, ⟨1, 1⟩] : List Handle) = pre ++ x :: suf ∧
      (∀ z ∈ pre, matchesTarget (run [Op.nodeO ⟨0, "A"⟩, Op.nodeO ⟨1, "B"⟩,
          Op.linkO ⟨0, 0⟩ ⟨1, 1⟩, Op.linkO ⟨0, 0⟩ ⟨1, 1⟩] emptyStore) ⟨1, 1⟩ z
          = false) ∧
      matchesTarget (run [Op.nodeO ⟨0, "A"⟩, Op.nodeO ⟨1, "B"⟩,
          Op.linkO ⟨0, 0⟩ ⟨1, 1⟩, Op.linkO ⟨0, 0⟩ ⟨1, 1⟩] emptyStore) ⟨1, 1⟩ x
          = true ∧
      ea2.outgoing = pre ++ suf ∧
      ([⟨0, 0⟩, ⟨0, 0⟩] : List Handle) = pre2 ++ y :: suf2 ∧
      (∀ z ∈ pre2, matchesTarget (run [Op.nodeO ⟨0, "A"⟩, Op.nodeO ⟨1, "B"⟩,
          Op.linkO ⟨0, 0⟩ ⟨1, 1⟩, Op.linkO ⟨0, 0⟩ ⟨1, 1⟩] emptyStore) ⟨0, 0⟩ z
          = false) ∧
      matchesTarget (run [Op.nodeO ⟨0, "A"⟩, Op.nodeO ⟨1, "B"⟩,
          Op.linkO ⟨0, 0⟩ ⟨1, 1⟩, Op.linkO ⟨0, 0⟩ ⟨1, 1⟩] emptyStore) ⟨0, 0⟩ y
          = true ∧
      eb2.incoming = pre2 ++ suf2 ∧
      ea2.outgoing.length + 1 = ([⟨1, 1⟩, ⟨1, 1⟩] : List Handle).length ∧
      eb2.incoming.length + 1 = ([⟨0, 0⟩, ⟨0, 0⟩] : List Handle).length ∧
      ea2.outgoing.countP (matchesTarget (run [Op.nodeO ⟨0, "A"⟩, Op.nodeO ⟨1, "B"⟩,
          Op.linkO ⟨0, 0⟩ ⟨1, 1⟩, Op.linkO ⟨0, 0⟩ ⟨1, 1⟩] emptyStore) ⟨1, 1⟩) + 1
        = ([⟨1, 1⟩, ⟨1, 1⟩] : List Handle).countP
            (matchesTarget (run [Op.nodeO ⟨0, "A"⟩, Op.nodeO ⟨1, "B"⟩,
              Op.linkO ⟨0, 0⟩ ⟨1, 1⟩, Op.linkO ⟨0, 0⟩ ⟨1, 1⟩] emptyStore) ⟨1, 1⟩) ∧
      eb2.incoming.countP (matchesTarget (run [Op.nodeO ⟨0, "A"⟩, Op.nodeO ⟨1, "B"⟩,
          Op.linkO ⟨0, 0⟩ ⟨1, 1⟩, Op.linkO ⟨0, 0⟩ ⟨1, 1⟩] emptyStore) ⟨0, 0⟩) + 1
        = ([⟨0, 0⟩, ⟨0, 0⟩] : List Handle).countP
            (matchesTarget (run [Op.nodeO ⟨0, "A"⟩, Op.nodeO ⟨1, "B"⟩,
              Op.linkO ⟨0, 0⟩ ⟨1, 1⟩, Op.linkO ⟨0, 0⟩ ⟨1, 1⟩] emptyStore) ⟨0, 0⟩) :=
  C6_unlink_removes_first_match
    (run [Op.nodeO ⟨0, "A"⟩, Op.nodeO ⟨1, "B"⟩,
      Op.linkO ⟨0, 0⟩ ⟨1, 1⟩, Op.linkO ⟨0, 0⟩ ⟨1, 1⟩] emptyStore)
    ⟨0, 0⟩ ⟨1, 1⟩
    { gen := 0, label := "A", incoming := [], outgoing := [⟨1, 1⟩, ⟨1, 1⟩],
      log := [DagreEvent.To "B", DagreEvent.To "B", DagreEvent.Add "A"] }
    { gen := 1, label := "B", incoming := [⟨0, 0⟩, ⟨0, 0⟩], outgoing := [],
      log := [DagreEvent.From "A", DagreEvent.From "A", DagreEvent.Add "B"] }
    (by decide) (by decide) (by decide) (by decide) (by decide) (by decide)

/-! ## Claim C8 -/

theorem cleanupStep_touch (fo : Bool) (lab : Label) (acc : Store) (nb : Handle)
    (e0 : NodeEntry) (hres : acc.resolves nb = true)
    (he : lookupN nb.key acc.nodes = some e0) :
    lookupN nb.key (cleanupStep fo lab acc nb).nodes = some
      (if fo then
        { e0 with
          log := DagreEvent.Remove lab :: e0.log,
          outgoing := e0.outgoing.filter (fun o => acc.resolves o) }
      else
        { e0 with
          log := DagreEvent.Remove lab :: e0.log,
          incoming := e0.incoming.filter (fun o => acc.resolves o) }) := by
  unfold cleanupStep
  rw [if_pos hres, lookupN_modify_self, he]
  rfl

theorem cleanupStep_entry (fo : Bool) (lab : Label) (acc : Store) (nb : Handle)
    (k : Key) (e0 : NodeEntry) (he : lookupN k acc.nodes = some e0) :
    lookupN k (cleanupStep fo lab acc nb).nodes = some e0 ∨
    (acc.resolves nb = true ∧ nb.key = k ∧
      lookupN k (cleanupStep fo lab acc nb).nodes = some
        (if fo then
          { e0 with
            log := DagreEvent.Remove lab :: e0.log,
            outgoing := e0.outgoing.filter (fun o => acc.resolves o) }
        else
          { e0 with
            log := DagreEvent.Remove lab :: e0.log,
            incoming := e0.incoming.filter (fun o => acc.resolves o) })) := by
  by_cases hres : acc.resolves nb = true
  · by_cases hk : nb.key = k
    · right
      refine ⟨hres, hk, ?_⟩
      subst hk
      exact cleanupStep_touch fo lab acc nb e0 hres he
    · left
      unfold cleanupStep
      rw [if_pos hres, lookupN_modify_ne _ _ _ _ (fun hh => hk hh.symm)]
      exact he
  · left
    unfold cleanupStep
    rw [if_neg hres]
    exact he

theorem cleanupFold_entry (fo : Bool) (lab : Label) (ev : DagreEvent) :
    ∀ (L : List Handle) (acc : Store) (k : Key) (e0 : NodeEntry),
      lookupN k acc.nodes = some e0 →
      ∃ e1, lookupN k (L.foldl (cleanupStep fo lab) acc).nodes = some e1 ∧
        e0.log.count ev ≤ e1.log.count ev ∧
        (fo = true → e1.incoming = e0.incoming) ∧
        (fo = false → e1.outgoing = e0.outgoing) ∧
        (fo = true → (∀ o ∈ e0.outgoing, acc.resolves o = true) →
          ∀ o ∈ e1.outgoing, acc.resolves o = true) ∧
        (fo = false → (∀ o ∈ e0.incoming, acc.resolves o = true) →
          ∀ o ∈ e1.incoming, acc.resolves o = true)
  | [], acc, k, e0, he => ⟨e0, he, Nat.le_refl _, fun _ => rfl, fun _ => rfl,
      fun _ hcl => hcl, fun _ hcl => hcl⟩
  | nb :: rest, acc, k, e0, he => by
      rw [List.foldl_cons]
      rcases cleanupStep_entry fo lab acc nb k e0 he with hsame | ⟨hres, hk, hmod⟩
      · obtain ⟨e1, h1, h2, h3, h4, h5, h6⟩ :=
          cleanupFold_entry fo lab ev rest (cleanupStep fo lab acc nb) k e0 hsame
        refine ⟨e1, h1, h2, h3, h4, ?_, ?_⟩
        · intro hfo hcl o ho
          have h7 := h5 hfo (fun o2 ho2 => by
            rw [cleanupStep_resolves]
            exact hcl o2 ho2) o ho
          rw [cleanupStep_resolves] at h7
          exact h7
        · intro hfo hcl o ho
          have h7 := h6 hfo (fun o2 ho2 => by
            rw [cleanupStep_resolves]
            exact hcl o2 ho2) o ho
          rw [cleanupStep_resolves] at h7
          exact h7
      · cases fo with
        | true =>
            obtain ⟨e1, h1, h2, h3, h4, h5, h6⟩ :=
              cleanupFold_entry true lab ev rest (cleanupStep true lab acc nb) k
                { e0 with
                  log := DagreEvent.Remove lab :: e0.log,
                  outgoing := e0.outgoing.filter (fun o => acc.resolves o) }
                (by simpa using hmod)
            refine ⟨e1, h1, ?_, ?_, ?_, ?_, ?_⟩
            · refine Nat.le_trans ?_ h2
              show e0.log.count ev ≤ (DagreEvent.Remove lab :: e0.log).count ev
              rw [List.count_cons]
              exact Nat.le_add_right _ _
            · intro hfo
              rw [h3 hfo]
            · intro hfo
              cases hfo
            · intro hfo _ o ho
              have h7 := h5 hfo (fun o2 ho2 => by
                rw [cleanupStep_resolves]
                exact (List.mem_filter.mp ho2).2) o ho
              rw [cleanupStep_resolves] at h7
              exact h7
            · intro hfo
              cases hfo
        | false =>
            obtain ⟨e1, h1, h2, h3, h4, h5, h6⟩ :=
              cleanupFold_entry false lab ev rest (cleanupStep false lab acc nb) k
                { e0 with
                  log := DagreEvent.Remove lab :: e0.log,
                  incoming := e0.incoming.filter (fun o => acc.resolves o) }
                (by simpa using hmod)
            refine ⟨e1, h1, ?_, ?_, ?_, ?_, ?_⟩
            · refine Nat.le_trans ?_ h2
              show e0.log.count ev ≤ (DagreEvent.Remove lab :: e0.log).count ev
              rw [List.count_cons]
              exact Nat.le_add_right _ _
            · intro hfo
              cases hfo
            · intro hfo
              rw [h4 hfo]
            · intro hfo
              cases hfo
            · intro hfo _ o ho
              have h7 := h6 hfo (fun o2 ho2 => by
                rw [cleanupStep_resolves]
                exact (List.mem_filter.mp ho2).2) o ho
              rw [cleanupStep_resolves] at h7
              exact h7

theorem cleanupFold_touched (fo : Bool) (lab : Label) :
    ∀ (L : List Handle) (acc : Store) (h : Handle) (e0 : NodeEntry),
      h ∈ L → acc.resolves h = true → lookupN h.key acc.nodes = some e0 →
      ∃ e1, lookupN h.key (L.foldl (cleanupStep fo lab) acc).nodes = some e1 ∧
        e0.log.count (DagreEvent.Remove lab) + 1
          ≤ e1.log.count (DagreEvent.Remove lab) ∧
        (fo = true → ∀ o ∈ e1.outgoing, acc.resolves o = true) ∧
        (fo = false → ∀ o ∈ e1.incoming, acc.resolves o = true)
  | [], _, h, _, hmem, _, _ => absurd hmem (List.not_mem_nil h)
  | nb :: rest, acc, h, e0, hmem, hres, he => by
      rw [List.foldl_cons]
      by_cases hnb : nb.key = h.key
      · -- the head step touches h's entry (nb resolves iff it is h itself)
        have hres_nb : acc.resolves nb = true ∨ acc.resolves nb = false := by
          cases acc.resolves nb
          · exact Or.inr rfl
          · exact Or.inl rfl
        rcases hres_nb with hrnb | hrnb
        · have hstep := cleanupStep_touch fo lab acc nb e0 hrnb (by rw [hnb]; exact he)
          rw [hnb] at hstep
          obtain ⟨e1, h1, h2, h3, h4, h5, h6⟩ :=
            cleanupFold_entry fo lab (DagreEvent.Remove lab) rest
              (cleanupStep fo lab acc nb) h.key _ hstep
          refine ⟨e1, h1, ?_, ?_, ?_⟩
          · refine Nat.le_trans ?_ h2
            cases fo
            · show e0.log.count (DagreEvent.Remove lab) + 1
                ≤ (DagreEvent.Remove lab :: e0.log).count (DagreEvent.Remove lab)
              simp [List.count_cons]
            · show e0.log.count (DagreEvent.Remove lab) + 1
                ≤ (DagreEvent.Remove lab :: e0.log).count (DagreEvent.Remove lab)
              simp [List.count_cons]
          · intro hfo o ho
            subst hfo
            have h7 := h5 rfl (fun o2 ho2 => by
              rw [cleanupStep_resolves]
              exact (List.mem_filter.mp (by simpa using ho2)).2) o ho
            rw [cleanupStep_resolves] at h7
            exact h7
          · intro hfo o ho
            subst hfo
            have h7 := h6 rfl (fun o2 ho2 => by
              rw [cleanupStep_resolves]
              exact (List.mem_filter.mp (by simpa using ho2)).2) o ho
            rw [cleanupStep_resolves] at h7
            exact h7
        · -- head handle does not resolve: step is a no-op, h must be in the rest
          have hstep : cleanupStep fo lab acc nb = acc := by
            unfold cleanupStep
            rw [if_neg (by rw [hrnb]; exact Bool.false_ne_true)]
          have hmem2 : h ∈ rest := by
            rcases List.mem_cons.mp hmem with heq | hm
            · exfalso
              rw [heq] at hres
              rw [hres] at hrnb
              exact Bool.noConfusion hrnb
            · exact hm
          rw [hstep]
          exact cleanupFold_touched fo lab rest acc h e0 hmem2 hres he
      · -- head step (if any) touches a different key
        have hmem2 : h ∈ rest := by
          rcases List.mem_cons.mp hmem with heq | hm
          · exact absurd (congrArg Handle.key heq.symm) hnb
          · exact hm
        rcases cleanupStep_entry fo lab acc nb h.key e0 he with hsame | ⟨_, hk, _⟩
        · obtain ⟨e1, h1, h2, h3, h4⟩ :=
            cleanupFold_touched fo lab rest (cleanupStep fo lab acc nb) h e0 hmem2
              (by rw [cleanupStep_resolves]; exact hres) hsame
          refine ⟨e1, h1, h2, ?_, ?_⟩
          · intro hfo o ho
            have h7 := h3 hfo o ho
            rw [cleanupStep_resolves] at h7
            exact h7
          · intro hfo o ho
            have h7 := h4 hfo o ho
            rw [cleanupStep_resolves] at h7
            exact h7
        · exact absurd hk hnb

theorem resolves_lookup (s : Store) (h : Handle) (hr : s.resolves h = true) :
    ∃ e, lookupN h.key s.nodes = some e := by
  unfold Store.resolves at hr
  cases hl : lookupN h.key s.nodes with
  | none => rw [hl] at hr; exact absurd hr (by simp)
  | some e => exact ⟨e, rfl⟩

/-- C8: cascade cleanup on eviction.  After `evict(a)` (with `a` live and
`aE` its entry), every handle `h` that was recorded in `aE.incoming` and is
still live afterwards has its `outgoing` list free of unresolvable entries
and carries at least one more `Remove(label of a)` event in its log than
before; symmetrically for every `h` recorded in `aE.outgoing`, its
`incoming` list is free of unresolvable entries and its log gained a
`Remove` event. -/
theorem C8_evict_cascade_cleanup (s : Store) (a : Handle) (aE : NodeEntry)
    (ha : s.resolves a = true) (hE : lookupN a.key s.nodes = some aE) :
    ∀ h : Handle, (evict s a).resolves h = true →
      (h ∈ aE.incoming →
        ∃ e0 e1, lookupN h.key s.nodes = some e0 ∧
          lookupN h.key (evict s a).nodes = some e1 ∧
          (∀ o ∈ e1.outgoing, (evict s a).resolves o = true) ∧
          e0.log.count (DagreEvent.Remove aE.label) + 1
            ≤ e1.log.count (DagreEvent.Remove aE.label)) ∧
      (h ∈ aE.outgoing →
        ∃ e0 e1, lookupN h.key s.nodes = some e0 ∧
          lookupN h.key (evict s a).nodes = some e1 ∧
          (∀ o ∈ e1.incoming, (evict s a).resolves o = true) ∧
          e0.log.count (DagreEvent.Remove aE.label) + 1
            ≤ e1.log.count (DagreEvent.Remove aE.label)) := by
  intro h hlive
  have hgen : (aE.gen == a.gen) = true := by
    unfold Store.resolves at ha
    rw [hE] at ha
    exact ha
  have hev : evict s a
      = invalidate_from aE.incoming aE.outgoing aE.label (s.removeKey a.key) :=
    evict_live s a aE hE hgen
  have hres1 : (s.removeKey a.key).resolves h = true := by
    rw [hev] at hlive
    unfold invalidate_from at hlive
    rw [cleanupFold_resolves, cleanupFold_resolves] at hlive
    exact hlive
  have hkne : h.key ≠ a.key := by
    intro hk
    rw [resolves_removeKey_self_key s a.key h hk] at hres1
    exact Bool.noConfusion hres1
  obtain ⟨e0, he0⟩ := resolves_lookup _ h hres1
  have he0s : lookupN h.key s.nodes = some e0 := by
    rw [← lookupN_removeKey_ne a.key h.key hkne s.nodes]
    exact he0
  constructor
  · intro hmem
    obtain ⟨em, h1m, h2m, h3m, _⟩ :=
      cleanupFold_touched true aE.label aE.incoming (s.removeKey a.key) h e0
        hmem hres1 he0
    obtain ⟨e1, h1, h2, _, h4, _, _⟩ :=
      cleanupFold_entry false aE.label (DagreEvent.Remove aE.label) aE.outgoing
        (aE.incoming.foldl (cleanupStep true aE.label) (s.removeKey a.key))
        h.key em h1m
    refine ⟨e0, e1, he0s, ?_, ?_, ?_⟩
    · rw [hev]
      exact h1
    · rw [h4 rfl]
      intro o ho
      have h7 := h3m rfl o ho
      rw [hev]
      unfold invalidate_from
      rw [cleanupFold_resolves, cleanupFold_resolves]
      exact h7
    · exact Nat.le_trans h2m h2
  · intro hmem
    obtain ⟨em, h1m, h2m, _, _, _, _⟩ :=
      cleanupFold_entry true aE.label (DagreEvent.Remove aE.label) aE.incoming
        (s.removeKey a.key) h.key e0 he0
    obtain ⟨e1, h1, h2, _, h4⟩ :=
      cleanupFold_touched false aE.label aE.outgoing
        (aE.incoming.foldl (cleanupStep true aE.label) (s.removeKey a.key)) h em
        hmem (by rw [cleanupFold_resolves]; exact hres1) h1m
    refine ⟨e0, e1, he0s, ?_, ?_, ?_⟩
    · rw [hev]
      exact h1
    · intro o ho
      have h7 := h4 rfl o ho
      rw [cleanupFold_resolves] at h7
      rw [hev]
      unfold invalidate_from
      rw [cleanupFold_resolves, cleanupFold_resolves]
      exact h7
    · exact Nat.le_trans (Nat.succ_le_succ h2m) h2

/-- Witness for C8 at the concrete neighbor handle `⟨1, 1⟩`: evicting node 0
from a store where node 1 is linked in both directions with node 0. -/
theorem C8_evict_cascade_cleanup_witness :
    (∃ e0 e1,
      lookupN (Handle.key ⟨1, 1⟩) (run [Op.nodeO ⟨0, "A"⟩, Op.nodeO ⟨1, "B"⟩,
        Op.linkO ⟨1, 1⟩ ⟨0, 0⟩, Op.linkO ⟨0, 0⟩ ⟨1, 1⟩] emptyStore).nodes
        = some e0 ∧
      lookupN (Handle.key ⟨1, 1⟩) (evict (run [Op.nodeO ⟨0, "A"⟩, Op.nodeO ⟨1, "B"⟩,
        Op.linkO ⟨1, 1⟩ ⟨0, 0⟩, Op.linkO ⟨0, 0⟩ ⟨1, 1⟩] emptyStore)
        ⟨0, 0⟩).nodes = some e1 ∧
      (∀ o ∈ e1.outgoing,
        (evict (run [Op.nodeO ⟨0, "A"⟩, Op.nodeO ⟨1, "B"⟩,
          Op.linkO ⟨1, 1⟩ ⟨0, 0⟩, Op.linkO ⟨0, 0⟩ ⟨1, 1⟩] emptyStore)
          ⟨0, 0⟩).resolves o = true) ∧
      e0.log.count (DagreEvent.Remove "A") + 1
        ≤ e1.log.count (DagreEvent.Remove "A")) ∧
    (∃ e0 e1,
      lookupN (Handle.key ⟨1, 1⟩) (run [Op.nodeO ⟨0, "A"⟩, Op.nodeO ⟨1, "B"⟩,
        Op.linkO ⟨1, 1⟩ ⟨0, 0⟩, Op.linkO ⟨0, 0⟩ ⟨1, 1⟩] emptyStore).nodes
        = some e0 ∧
      lookupN (Handle.key ⟨1, 1⟩) (evict (run [Op.nodeO ⟨0, "A"⟩, Op.nodeO ⟨1, "B"⟩,
        Op.linkO ⟨1, 1⟩ ⟨0, 0⟩, Op.linkO ⟨0, 0⟩ ⟨1, 1⟩] emptyStore)
        ⟨0, 0⟩).nodes = some e1 ∧
      (∀ o ∈ e1.incoming,
        (evict (run [Op.nodeO ⟨0, "A"⟩, Op.nodeO ⟨1, "B"⟩,
          Op.linkO ⟨1, 1⟩ ⟨0, 0⟩, Op.linkO ⟨0, 0⟩ ⟨1, 1⟩] emptyStore)
          ⟨0, 0⟩).resolves o = true) ∧
      e0.log.count (DagreEvent.Remove "A") + 1
        ≤ e1.log.count (DagreEvent.Remove "A")) := by
  have H := C8_evict_cascade_cleanup
    (run [Op.nodeO ⟨0, "A"⟩, Op.nodeO ⟨1, "B"⟩, Op.linkO ⟨1, 1⟩ ⟨0, 0⟩,
      Op.linkO ⟨0, 0⟩ ⟨1, 1⟩] emptyStore) ⟨0, 0⟩
    { gen := 0, label := "A", incoming := [⟨1, 1⟩], outgoing := [⟨1, 1⟩],
      log := [DagreEvent.To "B", DagreEvent.From "B", DagreEvent.Add "A"] }
    (by decide) (by decide) ⟨1, 1⟩ (by decide)
  exact ⟨H.1 (by decide), H.2 (by decide)⟩

/-! ## Claim C10 -/

theorem unlinkOut_gen (p : Handle → Bool) (e : NodeEntry) :
    (match e.outgoing.findIdx? p with
     | some pos => { e with outgoing := e.outgoing.eraseIdx pos }
     | none => e).gen = e.gen := by
  cases hfi : e.outgoing.findIdx? p <;> rfl

theorem unlinkOut_label (p : Handle → Bool) (e : NodeEntry) :
    (match e.outgoing.findIdx? p with
     | some pos => { e with outgoing := e.outgoing.eraseIdx pos }
     | none => e).label = e.label := by
  cases hfi : e.outgoing.findIdx? p <;> rfl

theorem unlinkOut_log (p : Handle → Bool) (e : NodeEntry) :
    (match e.outgoing.findIdx? p with
     | some pos => { e with outgoing := e.outgoing.eraseIdx pos }
     | none => e).log = e.log := by
  cases hfi : e.outgoing.findIdx? p <;> rfl

theorem unlinkOut_erase (p : Handle → Bool) (e : NodeEntry) :
    (match e.outgoing.findIdx? p with
     | some pos => { e with outgoing := e.outgoing.eraseIdx pos }
     | none => e).outgoing = e.outgoing ∨
    ∃ i, (match e.outgoing.findIdx? p with
     | some pos => { e with outgoing := e.outgoing.eraseIdx pos }
     | none => e).outgoing = e.outgoing.eraseIdx i := by
  cases hfi : e.outgoing.findIdx? p with
  | none => exact Or.inl rfl
  | some i => exact Or.inr ⟨i, rfl⟩

theorem unlinkInc_gen (p : Handle → Bool) (e : NodeEntry) :
    (match e.incoming.findIdx? p with
     | some pos => { e with incoming := e.incoming.eraseIdx pos }
     | none => e).gen = e.gen := by
  cases hfi : e.incoming.findIdx? p <;> rfl

theorem unlinkInc_label (p : Handle → Bool) (e : NodeEntry) :
    (match e.incoming.findIdx? p with
     | some pos => { e with incoming := e.incoming.eraseIdx pos }
     | none => e).label = e.label := by
  cases hfi : e.incoming.findIdx? p <;> rfl

theorem unlinkInc_log (p : Handle → Bool) (e : NodeEntry) :
    (match e.incoming.findIdx? p with
     | some pos => { e with incoming := e.incoming.eraseIdx pos }
     | none => e).log = e.log := by
  cases hfi : e.incoming.findIdx? p <;> rfl

theorem unlinkInc_erase (p : Handle → Bool) (e : NodeEntry) :
    (match e.incoming.findIdx? p with
     | some pos => { e with incoming := e.incoming.eraseIdx pos }
     | none => e).incoming = e.incoming ∨
    ∃ i, (match e.incoming.findIdx? p with
     | some pos => { e with incoming := e.incoming.eraseIdx pos }
     | none => e).incoming = e.incoming.eraseIdx i := by
  cases hfi : e.incoming.findIdx? p with
  | none => exact Or.inl rfl
  | some i => exact Or.inr ⟨i, rfl⟩

theorem lookup_modify2_any (s : Store) (ka kb k : Key) (f1 f2 : NodeEntry → NodeEntry) :
    lookupN k ((s.modifyNode ka f1).modifyNode kb f2).nodes
      = ((lookupN k s.nodes).map fun e => if k = ka then f1 e else e).map
          (fun e => if k = kb then f2 e else e) := by
  by_cases hka : k = ka
  · subst hka
    by_cases hkb : k = kb
    · subst hkb
      rw [lookupN_modify_self, lookupN_modify_self]
      cases lookupN k s.nodes <;> simp
    · rw [lookupN_modify_ne _ _ _ _ hkb, lookupN_modify_self]
      cases lookupN k s.nodes <;> simp [hkb]
  · by_cases hkb : k = kb
    · subst hkb
      rw [lookupN_modify_self, lookupN_modify_ne _ _ _ _ hka]
      cases lookupN k s.nodes <;> simp [hka]
    · rw [lookupN_modify_ne _ _ _ _ hkb, lookupN_modify_ne _ _ _ _ hka]
      cases lookupN k s.nodes <;> simp [hka, hkb]

theorem unlink_frame (s : Store) (a b : Handle) (k : Key) :
    ((lookupN k s.nodes = none) ↔ (lookupN k (unlink s a b).nodes = none)) ∧
    (∀ e e2, lookupN k s.nodes = some e →
      lookupN k (unlink s a b).nodes = some e2 →
      e2.gen = e.gen ∧ e2.label = e.label ∧ e2.log = e.log ∧
      (k ≠ a.key → e2.outgoing = e.outgoing) ∧
      (k ≠ b.key → e2.incoming = e.incoming) ∧
      (e2.outgoing = e.outgoing ∨ ∃ i, e2.outgoing = e.outgoing.eraseIdx i) ∧
      (e2.incoming = e.incoming ∨ ∃ i, e2.incoming = e.incoming.eraseIdx i)) := by
  unfold unlink
  split
  case isTrue hcond =>
    dsimp only
    constructor
    · rw [lookup_modify2_any]
      cases lookupN k s.nodes <;> simp
    · intro e e2 h1 h2
      rw [lookup_modify2_any, h1] at h2
      simp only [Option.map_some'] at h2
      have he2 := (Option.some.inj h2).symm
      by_cases hka : k = a.key
      · by_cases hkb : k = b.key
        · rw [he2, if_pos hka, if_pos hkb]
          refine ⟨(unlinkInc_gen _ _).trans (unlinkOut_gen _ _),
            (unlinkInc_label _ _).trans (unlinkOut_label _ _),
            (unlinkInc_log _ _).trans (unlinkOut_log _ _),
            fun hcon => absurd hka hcon, fun hcon => absurd hkb hcon, ?_, ?_⟩
          · rw [unlinkInc_outgoing]
            exact unlinkOut_erase _ _
          · rcases unlinkInc_erase (matchesTarget
                (s.modifyNode a.key fun e =>
                  match e.outgoing.findIdx? (matchesTarget s b) with
                  | some pos => { e with outgoing := e.outgoing.eraseIdx pos }
                  | none => e) a) _ with hsame | ⟨i, hi⟩
            · rw [hsame, unlinkOut_incoming]
              exact Or.inl rfl
            · rw [hi, unlinkOut_incoming]
              exact Or.inr ⟨i, rfl⟩
        · rw [he2, if_pos hka, if_neg hkb]
          exact ⟨unlinkOut_gen _ _, unlinkOut_label _ _, unlinkOut_log _ _,
            fun hcon => absurd hka hcon, fun _ => unlinkOut_incoming _ _,
            unlinkOut_erase _ _, Or.inl (unlinkOut_incoming _ _)⟩
      · by_cases hkb : k = b.key
        · rw [he2, if_neg hka, if_pos hkb]
          exact ⟨unlinkInc_gen _ _, unlinkInc_label _ _, unlinkInc_log _ _,
            fun _ => unlinkInc_outgoing _ _, fun hcon => absurd hkb hcon,
            Or.inl (unlinkInc_outgoing _ _), unlinkInc_erase _ _⟩
        · rw [he2, if_neg hka, if_neg hkb]
          exact ⟨rfl, rfl, rfl, fun _ => rfl, fun _ => rfl, Or.inl rfl, Or.inl rfl⟩
  case isFalse hcond =>
    constructor
    · exact Iff.rfl
    · intro e e2 h1 h2
      rw [h1] at h2
      have he2 := (Option.some.inj h2).symm
      rw [he2]
      exact ⟨rfl, rfl, rfl, fun _ => rfl, fun _ => rfl, Or.inl rfl, Or.inl rfl⟩

theorem cleanLogs_empty : cleanLogs emptyStore := by
  intro kv hkv
  exact absurd hkv (List.not_mem_nil kv)

theorem cleanLogs_modify (s : Store) (k : Key) (f : NodeEntry → NodeEntry)
    (hf : ∀ e ev, ev ∈ (f e).log → ev ∈ e.log ∨ isUnlinkEvent ev = false)
    (hc : cleanLogs s) : cleanLogs (s.modifyNode k f) := by
  intro kv hkv ev hev
  obtain ⟨kv2, hmem, hsub⟩ := List.mem_map.mp hkv
  subst hsub
  by_cases h : kv2.1 = k
  · rw [if_pos h] at hev
    rcases hf kv2.2 ev hev with hin | hclean
    · exact hc kv2 hmem ev hin
    · exact hclean
  · rw [if_neg h] at hev
    exact hc kv2 hmem ev hev

theorem cleanLogs_removeKey (s : Store) (k : Key) (hc : cleanLogs s) :
    cleanLogs (s.removeKey k) := by
  intro kv hkv ev hev
  exact hc kv (List.mem_of_mem_filter hkv) ev hev

theorem cleanLogs_nodeOp (s : Store) (p : Payload) (hc : cleanLogs s) :
    cleanLogs (nodeOp s p).1 := by
  unfold nodeOp
  cases hl : lookupN p.key s.nodes with
  | some e => exact hc
  | none =>
      intro kv hkv ev hev
      rcases List.mem_cons.mp hkv with heq | hmem
      · rw [heq] at hev
        rcases List.mem_cons.mp hev with heq2 | hmem2
        · rw [heq2]; rfl
        · exact absurd hmem2 (List.not_mem_nil ev)
      · exact hc kv hmem ev hev

theorem cleanLogs_unidirectional (s : Store) (a b : Handle) (hc : cleanLogs s) :
    cleanLogs (unidirectional s a b) := by
  unfold unidirectional
  split
  · apply cleanLogs_modify _ b.key _ ?hf2 (cleanLogs_modify s a.key _ ?hf1 hc)
    case hf1 =>
      intro e ev hev
      rcases List.mem_cons.mp hev with heq | hmem
      · rw [heq]; exact Or.inr rfl
      · exact Or.inl hmem
    case hf2 =>
      intro e ev hev
      rcases List.mem_cons.mp hev with heq | hmem
      · rw [heq]; exact Or.inr rfl
      · exact Or.inl hmem
  · exact hc

theorem cleanLogs_bidirectional (s : Store) (a b : Handle) (hc : cleanLogs s) :
    cleanLogs (bidirectional s a b) := by
  unfold bidirectional
  split
  · apply cleanLogs_modify _ b.key _ ?hf2 (cleanLogs_modify s a.key _ ?hf1 hc)
    case hf1 =>
      intro e ev hev
      rcases List.mem_cons.mp hev with heq | hmem
      · rw [heq]; exact Or.inr rfl
      · rcases List.mem_cons.mp hmem with heq2 | hmem2
        · rw [heq2]; exact Or.inr rfl
        · exact Or.inl hmem2
    case hf2 =>
      intro e ev hev
      rcases List.mem_cons.mp hev with heq | hmem
      · rw [heq]; exact Or.inr rfl
      · rcases List.mem_cons.mp hmem with heq2 | hmem2
        · rw [heq2]; exact Or.inr rfl
        · exact Or.inl hmem2
  · exact hc

theorem cleanLogs_unlink (s : Store) (a b : Handle) (hc : cleanLogs s) :
    cleanLogs (unlink s a b) := by
  unfold unlink
  split
  · apply cleanLogs_modify _ b.key _ ?hf2 (cleanLogs_modify s a.key _ ?hf1 hc)
    case hf1 =>
      intro e ev hev
      rw [unlinkOut_log] at hev
      exact Or.inl hev
    case hf2 =>
      intro e ev hev
      rw [unlinkInc_log] at hev
      exact Or.inl hev
  · exact hc

theorem cleanLogs_cleanupStep (fo : Bool) (lab : Label) (acc : Store) (nb : Handle)
    (hc : cleanLogs acc) : cleanLogs (cleanupStep fo lab acc nb) := by
  unfold cleanupStep
  by_cases hr : acc.resolves nb
  · rw [if_pos hr]
    apply cleanLogs_modify _ nb.key _ ?hf hc
    case hf =>
      intro e ev hev
      cases fo with
      | true =>
          rcases List.mem_cons.mp hev with heq | hmem
          · rw [heq]; exact Or.inr rfl
          · exact Or.inl hmem
      | false =>
          rcases List.mem_cons.mp hev with heq | hmem
          · rw [heq]; exact Or.inr rfl
          · exact Or.inl hmem
  · rw [if_neg hr]
    exact hc

theorem cleanLogs_cleanupFold (fo : Bool) (lab : Label) :
    ∀ (L : List Handle) (acc : Store), cleanLogs acc →
      cleanLogs (L.foldl (cleanupStep fo lab) acc)
  | [], _, hc => hc
  | nb :: rest, acc, hc => by
      rw [List.foldl_cons]
      exact cleanLogs_cleanupFold fo lab rest _ (cleanLogs_cleanupStep fo lab acc nb hc)

theorem cleanLogs_evict (s : Store) (a : Handle) (hc : cleanLogs s) :
    cleanLogs (evict s a) := by
  cases hr : s.resolves a with
  | false => rw [evict_stale s a hr]; exact hc
  | true =>
      unfold Store.resolves at hr
      cases hl : lookupN a.key s.nodes with
      | none => rw [hl] at hr; exact absurd hr (by simp)
      | some e =>
          rw [hl] at hr
          rw [evict_live s a e hl hr]
          unfold invalidate_from
          exact cleanLogs_cleanupFold false _ _ _
            (cleanLogs_cleanupFold true _ _ _ (cleanLogs_removeKey s a.key hc))

theorem cleanLogs_applyOp (s : Store) (op : Op) (hc : cleanLogs s) :
    cleanLogs (applyOp s op) := by
  cases op with
  | nodeO p => exact cleanLogs_nodeOp s p hc
  | linkO a b => exact cleanLogs_unidirectional s a b hc
  | bidiO a b => exact cleanLogs_bidirectional s a b hc
  | unlinkO a b => exact cleanLogs_unlink s a b hc
  | evictO a => exact cleanLogs_evict s a hc

theorem cleanLogs_run : ∀ (ops : List Op) (s : Store), cleanLogs s →
    cleanLogs (run ops s)
  | [], _, hc => hc
  | op :: rest, s, hc => cleanLogs_run rest (applyOp s op) (cleanLogs_applyOp s op hc)

theorem noUnlinkEvents_of_cleanLogs (s : Store) (hc : cleanLogs s) :
    noUnlinkEvents s = true := by
  unfold noUnlinkEvents
  rw [List.all_eq_true]
  intro kv hkv
  rw [List.all_eq_true]
  intro ev hev
  rw [hc kv hkv ev hev]
  rfl

/-- C10: frame property of `unlink` — for every store and pair of handles,
unlink changes nothing except (at most) removing one entry of `a.outgoing`
and one entry of `b.incoming`: keys stay present or absent as before, every
entry keeps its generation, label and log (so no log entry is ever appended
by unlink), every list other than `a.outgoing`/`b.incoming` is untouched,
and those two change at most by erasing one index; and no sequence of store
operations from the empty store ever emits an `UnlinkInc` or `UnlinkOut`
event into any log. -/
theorem C10_unlink_frame_no_unlink_events :
    (∀ (s : Store) (a b : Handle) (k : Key),
      ((lookupN k s.nodes = none) ↔ (lookupN k (unlink s a b).nodes = none)) ∧
      (∀ e e2, lookupN k s.nodes = some e →
        lookupN k (unlink s a b).nodes = some e2 →
        e2.gen = e.gen ∧ e2.label = e.label ∧ e2.log = e.log ∧
        (k ≠ a.key → e2.outgoing = e.outgoing) ∧
        (k ≠ b.key → e2.incoming = e.incoming) ∧
        (e2.outgoing = e.outgoing ∨ ∃ i, e2.outgoing = e.outgoing.eraseIdx i) ∧
        (e2.incoming = e.incoming ∨ ∃ i, e2.incoming = e.incoming.eraseIdx i))) ∧
    (∀ ops : List Op, noUnlinkEvents (run ops emptyStore) = true) :=
  ⟨unlink_frame,
   fun ops => noUnlinkEvents_of_cleanLogs _ (cleanLogs_run ops emptyStore cleanLogs_empty)⟩

/-- Witness for C10: unlinking the only 0 → 1 edge in a two-node store
changes exactly node 0's outgoing list, and a concrete operation sequence
emits no unlink events. -/
theorem C10_unlink_frame_no_unlink_events_witness :
    ((⟨0, "A", [], [], [DagreEvent.To "B", DagreEvent.Add "A"]⟩ : NodeEntry).gen
      = (⟨0, "A", [], [⟨1, 1⟩], [DagreEvent.To "B", DagreEvent.Add "A"]⟩ : NodeEntry).gen) ∧
    ((⟨0, "A", [], [], [DagreEvent.To "B", DagreEvent.Add "A"]⟩ : NodeEntry).log
      = (⟨0, "A", [], [⟨1, 1⟩], [DagreEvent.To "B", DagreEvent.Add "A"]⟩ : NodeEntry).log) ∧
    ((0 : Key) ≠ Handle.key ⟨1, 1⟩ →
      (⟨0, "A", [], [], [DagreEvent.To "B", DagreEvent.Add "A"]⟩ : NodeEntry).incoming
        = (⟨0, "A", [], [⟨1, 1⟩], [DagreEvent.To "B", DagreEvent.Add "A"]⟩ : NodeEntry).incoming) ∧
    ((⟨0, "A", [], [], [DagreEvent.To "B", DagreEvent.Add "A"]⟩ : NodeEntry).outgoing
      = (⟨0, "A", [], [⟨1, 1⟩], [DagreEvent.To "B", DagreEvent.Add "A"]⟩ : NodeEntry).outgoing
      ∨ ∃ i,
        (⟨0, "A", [], [], [DagreEvent.To "B", DagreEvent.Add "A"]⟩ : NodeEntry).outgoing
          = ((⟨0, "A", [], [⟨1, 1⟩],
              [DagreEvent.To "B", DagreEvent.Add "A"]⟩ : NodeEntry).outgoing).eraseIdx i) ∧
    noUnlinkEvents (run [Op.nodeO ⟨0, "A"⟩, Op.nodeO ⟨1, "B"⟩,
      Op.linkO ⟨0, 0⟩ ⟨1, 1⟩, Op.unlinkO ⟨0, 0⟩ ⟨1, 1⟩] emptyStore) = true := by
  have h := C10_unlink_frame_no_unlink_events
  have h2 := (h.1 (run [Op.nodeO ⟨0, "A"⟩, Op.nodeO ⟨1, "B"⟩,
      Op.linkO ⟨0, 0⟩ ⟨1, 1⟩] emptyStore) ⟨0, 0⟩ ⟨1, 1⟩ 0).2
    ⟨0, "A", [], [⟨1, 1⟩], [DagreEvent.To "B", DagreEvent.Add "A"]⟩
    ⟨0, "A", [], [], [DagreEvent.To "B", DagreEvent.Add "A"]⟩
    (by rfl) (by rfl)
  exact ⟨h2.1, h2.2.2.1, h2.2.2.2.2.1, h2.2.2.2.2.2.1,
    h.2 [Op.nodeO ⟨0, "A"⟩, Op.nodeO ⟨1, "B"⟩,
      Op.linkO ⟨0, 0⟩ ⟨1, 1⟩, Op.unlinkO ⟨0, 0⟩ ⟨1, 1⟩]⟩
